import Mathlib

/-!
Shallow embedding of the geo-bucket property-search core
(`properties/services/normalization.py`, `bucket_service.py`,
`location_matcher.py`, `models.py`, `serializers.py`).

Strings are modelled as `List Char` (ASCII-faithful: Python's `str.lower`
is modelled on the ASCII range; every character the pipeline keeps is an
ASCII lowercase letter, digit or space, so this matches the source on the
inputs the claims quantify over).  Python floats are modelled as `ℚ`
(no claim depends on rounding).  The external `h3` library and the
Django ORM store are modelled as explicit parameters/state: `H3` bundles
the three pure h3 calls the service makes, and `Store` is the list-backed
content of the two tables.
-/

namespace GeoSearch

abbrev Str := List Char

/-- Python `str.lower` on the ASCII range (the pipeline discards any
character that is not `[a-z0-9\s]` right after lowering). -/
def pyLower (c : Char) : Char :=
  if 'A' ≤ c ∧ c ≤ 'Z' then Char.ofNat (c.toNat + 32) else c

/-- Python `str.upper` on the ASCII range (used by `metaphone_simple`). -/
def pyUpper (c : Char) : Char :=
  if 'a' ≤ c ∧ c ≤ 'z' then Char.ofNat (c.toNat - 32) else c

/-- The characters Python's `\s` matches (ASCII). -/
def isPySpace (c : Char) : Bool :=
  c = ' ' ∨ c = '\t' ∨ c = '\n' ∨ c = '\x0d' ∨ c = '\x0b' ∨ c = '\x0c'

/-- A character kept verbatim by `re.sub(r'[^a-z0-9\s]', ' ', ·)`:
lowercase letter or digit. -/
def isLowerAlnum (c : Char) : Bool :=
  ('a' ≤ c ∧ c ≤ 'z') ∨ ('0' ≤ c ∧ c ≤ '9')

/-- Python `str.strip()`: drop leading and trailing whitespace. -/
def pyStrip (s : Str) : Str :=
  ((s.dropWhile isPySpace).reverse.dropWhile isPySpace).reverse

/-- `re.sub(r'[^a-z0-9\s]', ' ', s)`. -/
def subSpecial (s : Str) : Str :=
  s.map (fun c => if isLowerAlnum c || isPySpace c then c else ' ')

/-- Helper for `collapse`: the flag records whether the previous character
was whitespace whose collapsed `' '` has already been emitted. -/
def collapseAux : Bool → Str → Str
  | _, [] => []
  | prevWs, c :: t =>
    if isPySpace c then
      if prevWs then collapseAux true t else ' ' :: collapseAux true t
    else c :: collapseAux false t

/-- `re.sub(r'\s+', ' ', s)`: each maximal whitespace run becomes one `' '`. -/
def collapse (s : Str) : Str := collapseAux false s

/-- Helper for `splitWs`; `cur` is the current token, reversed. -/
def splitWsAux : Str → Str → List Str
  | cur, [] => if cur = [] then [] else [cur.reverse]
  | cur, c :: t =>
    if isPySpace c then
      if cur = [] then splitWsAux [] t else cur.reverse :: splitWsAux [] t
    else splitWsAux (c :: cur) t

/-- Python `str.split()` with no argument: split on whitespace runs,
never producing empty tokens. -/
def splitWs (s : Str) : List Str := splitWsAux [] s

/-- `' '.join(ws)`. -/
def joinWords : List Str → Str
  | [] => []
  | [w] => w
  | w :: ws => w ++ ' ' :: joinWords ws

/-- `LocationNormalizer.COMMON_SUFFIXES`. -/
def STOPWORDS : List Str :=
  ["lagos".data, "nigeria".data, "ng".data, "lga".data, "state".data, "area".data]

/-- Pattern test used by `replaceL`. -/
def isPre : Str → Str → Bool
  | [], _ => true
  | _ :: _, [] => false
  | a :: p, b :: s => a = b && isPre p s

/-- Fuel-indexed helper for `replaceL`; every step consumes at least one
character, so fuel `s.length` computes the untruncated result. -/
def replaceLF (p r : Str) : Nat → Str → Str
  | _, [] => []
  | 0, s => s
  | n + 1, c :: t =>
    if p ≠ [] ∧ isPre p (c :: t) then
      r ++ replaceLF p r n (t.drop (p.length - 1))
    else c :: replaceLF p r n t

/-- Python `str.replace(p, r)`: replace every non-overlapping occurrence of
`p`, scanning left to right and resuming after each replacement. -/
def replaceL (p r : Str) (s : Str) : Str := replaceLF p r s.length s

/-- `LocationNormalizer.REPLACEMENTS` in Python dict (insertion) order;
the `for old, new in REPLACEMENTS.items()` loop wraps each key/value in
single spaces. -/
def REPLACEMENTS : List (Str × Str) :=
  [(" str ".data, " street ".data), (" rd ".data, " road ".data),
   (" ave ".data, " avenue ".data), (" st ".data, " street ".data)]

/-- The replacement loop at the end of `LocationNormalizer.normalize`. -/
def applyReplacements (s : Str) : Str :=
  REPLACEMENTS.foldl (fun acc pr => replaceL pr.1 pr.2 acc) s

/-- `LocationNormalizer.normalize`. -/
def normalize (name : Str) : Str :=
  if name = [] then []
  else
    let n1 := pyStrip (name.map pyLower)
    let n2 := subSpecial n1
    let n3 := collapse n2
    let words := splitWs n3
    let filtered := words.filter (fun w => ¬ w ∈ STOPWORDS)
    let kept := if filtered = [] then (splitWs n3).take 2 else filtered
    pyStrip (applyReplacements (joinWords kept))

/-- `LocationNormalizer.generate_trigrams`. -/
def generate_trigrams (text : Str) : List Str :=
  if text = [] ∨ text.length < 3 then []
  else
    let t := (text.map pyLower).filter (fun c => c ≠ ' ')
    (List.range (t.length - 2)).map (fun i => (t.drop i).take 3)

/-- Helper for `dedupRuns`: drop characters equal to the one just kept. -/
def dedupRunsAux (prev : Char) : Str → Str
  | [] => []
  | c :: t => if c = prev then dedupRunsAux prev t else c :: dedupRunsAux c t

/-- `re.sub(r'(.)\1+', r'\1', ·)`: collapse runs of equal characters. -/
def dedupRuns : Str → Str
  | [] => []
  | c :: t => c :: dedupRunsAux c t

/-- `'AEIOU'` test. -/
def isVowel (c : Char) : Bool :=
  c = 'A' ∨ c = 'E' ∨ c = 'I' ∨ c = 'O' ∨ c = 'U'

/-- `LocationNormalizer.metaphone_simple`. -/
def metaphone_simple (text : Str) : Str :=
  if text = [] then []
  else
    let t := text.map pyUpper
    let r :=
      match t with
      | [] => []
      | c :: rest =>
        if rest = [] then [c] else c :: rest.filter (fun d => ¬ isVowel d)
    let r2 := dedupRuns r
    let r3 := replaceL "CH".data "X".data
      (replaceL "SH".data "X".data
        (replaceL "CK".data "K".data
          (replaceL "PH".data "F".data r2)))
    r3.take 10

/-- The trigram multiset of a string, as the set Python's `set(...)` builds. -/
def trigramSet (s : Str) : Finset Str := (generate_trigrams s).toFinset

/-- `LocationNormalizer.calculate_similarity` (floats modelled as `ℚ`). -/
def calculate_similarity (str1 str2 : Str) : ℚ :=
  if str1 = [] ∨ str2 = [] then 0
  else
    let t1 := trigramSet str1
    let t2 := trigramSet str2
    if t1 = ∅ ∨ t2 = ∅ then
      if str1.map pyLower = str2.map pyLower then 1 else 0
    else
      let inter := (t1 ∩ t2).card
      let uni := (t1 ∪ t2).card
      if 0 < uni then (inter : ℚ) / (uni : ℚ) else 0

/-! ### Word-level view of the replacement loop

`normalize` joins its kept tokens with single spaces and then runs
`str.replace(' u ', ' v ')` for the four abbreviation pairs.  On such a
string an occurrence of `' u '` is exactly an interior word equal to `u`,
and Python's left-to-right non-overlapping scan consumes the trailing
space, so the word immediately after a replacement cannot itself be
replaced.  `wrepHead`/`wrepTail` express this word-level behaviour; the
simulation lemma below proves it equal to `replaceL`. -/

/-- Word-level replacement scan where the leading word still carries a
separating space before it (so it is replaceable unless last). -/
def wrepTail (u v : Str) : List Str → List Str
  | [] => []
  | [w] => [w]
  | w :: w2 :: ws =>
    if w = u then v :: w2 :: wrepTail u v ws
    else w :: wrepTail u v (w2 :: ws)

/-- Word-level replacement scan from the start of the string: the first
word has no space before it and is never replaced. -/
def wrepHead (u v : Str) (ws : List Str) : List Str :=
  match ws with
  | [] => []
  | w :: t => w :: wrepTail u v t

/-- The four abbreviation passes of `normalize`, word-level, in Python
dict order. -/
def wrep4 (ws : List Str) : List Str :=
  wrepHead "st".data "street".data
    (wrepHead "ave".data "avenue".data
      (wrepHead "rd".data "road".data
        (wrepHead "str".data "street".data ws)))

/-- Non-empty words containing no whitespace character. -/
def WordsOK (ws : List Str) : Prop :=
  ∀ w ∈ ws, w ≠ [] ∧ ∀ c ∈ w, isPySpace c = false

/-- Non-empty words of lowercase-alphanumeric characters. -/
def GoodWords (ws : List Str) : Prop :=
  ∀ w ∈ ws, w ≠ [] ∧ ∀ c ∈ w, isLowerAlnum c = true

/-- The shape of every `normalize` output: empty, or a single-space join
of non-empty lowercase-alphanumeric words that are either all stopwords
(at most two of them, the fallback branch) or all non-stopwords. -/
def NormShape (y : Str) : Prop :=
  y = [] ∨ ∃ ws, ws ≠ [] ∧ GoodWords ws ∧
    ((∀ w ∈ ws, w ∈ STOPWORDS) ∧ ws.length ≤ 2 ∨ ∀ w ∈ ws, w ∉ STOPWORDS) ∧
    y = joinWords ws

/-! ### Data model (`models.py`) and store state -/

/-- A row of `geo_buckets` (`GeoBucket`).  `centroid` is `(lat, lng)`. -/
structure Bucket where
  id : Nat
  h3_index : Str
  centroid : ℚ × ℚ
  normalized_name : Str
  variant_names : List Str
  property_count : Nat
deriving DecidableEq

/-- A row of `location_index` (`LocationIndex`); the `bucket` foreign key
is held by id. -/
structure IndexEntry where
  original_name : Str
  normalized_name : Str
  bucket_id : Nat
  metaphone : Str
  trigrams : List Str
deriving DecidableEq

/-- The mutable database content the services read and write.  `nextId`
models the autoincrement primary key of `geo_buckets`. -/
structure Store where
  buckets : List Bucket
  entries : List IndexEntry
  nextId : Nat
deriving DecidableEq

def emptyStore : Store := ⟨[], [], 0⟩

/-- The three pure calls `bucket_service.py` makes into the external `h3`
library (`latlng_to_cell` at resolution 9, `cell_to_latlng`,
`grid_disk(·, 1)`); modelled as parameters since `h3` is not repository
code and every claim is independent of its numerics. -/
structure H3 where
  cellOf : ℚ × ℚ → Str
  center : Str → ℚ × ℚ
  disk1 : Str → List Str

/-- `GeoBucket.add_variant_name`: append `name` unless empty or already
present verbatim. -/
def add_variant_name (b : Bucket) (name : Str) : Bucket :=
  if name ≠ [] ∧ name ∉ b.variant_names then
    { b with variant_names := b.variant_names ++ [name] }
  else b

/-- Persisting a mutated bucket row (`bucket.save()`): replace the row
with the same primary key. -/
def Store.saveBucket (s : Store) (b : Bucket) : Store :=
  { s with buckets := s.buckets.map (fun x => if x.id = b.id then b else x) }

/-- `BucketService._add_to_location_index`: insert a `LocationIndex` row
for `(original, bucket)` unless one exists, computing trigrams and
metaphone at write time. -/
def addToLocationIndex (s : Store) (b : Bucket) (original normalized : Str) :
    Store :=
  if s.entries.any (fun e => e.original_name = original ∧ e.bucket_id = b.id) then s
  else
    { s with entries := s.entries ++
        [⟨original, normalized, b.id, metaphone_simple normalized,
          generate_trigrams normalized⟩] }

/-- `BucketService.find_or_create_bucket`.  The source performs no
coordinate validation and no conflict handling: it filters by the cell id
and, when nothing is found, creates the bucket (first variant
`[location_name] if location_name else []`). -/
def find_or_create_bucket (h : H3) (lat lng : ℚ) (location_name : Str)
    (s : Store) : Bucket × Store :=
  let h3i := h.cellOf (lat, lng)
  let normalized := normalize location_name
  match s.buckets.find? (fun b => b.h3_index = h3i) with
  | some bucket =>
    let bucket' := add_variant_name bucket location_name
    let s1 := (s.saveBucket bucket')
    (bucket', addToLocationIndex s1 bucket' location_name normalized)
  | none =>
    let bucket : Bucket :=
      ⟨s.nextId, h3i, h.center h3i, normalized,
       if location_name ≠ [] then [location_name] else [], 0⟩
    let s1 : Store :=
      { s with buckets := s.buckets ++ [bucket], nextId := s.nextId + 1 }
    (bucket, addToLocationIndex s1 bucket location_name normalized)

/-- Store-level create failure taxonomy. -/
inductive BucketError where
  | bucketConflict
deriving DecidableEq

/-- `find_or_create_bucket` with the store-level uniqueness constraint on
`h3_index` made visible: `interfere` models writes committed by concurrent
callers between the existence check and `GeoBucket.objects.create`, and the
create step surfaces the resulting `IntegrityError` as `bucketConflict` —
faithful to the source, which wraps the create in no try/except.
`interfere = fun t => t` is the sequential (single-caller) execution. -/
def find_or_create_bucket_race (h : H3) (interfere : Store → Store)
    (lat lng : ℚ) (location_name : Str) (s : Store) :
    Except BucketError (Bucket × Store) :=
  let h3i := h.cellOf (lat, lng)
  let normalized := normalize location_name
  match s.buckets.find? (fun b => b.h3_index = h3i) with
  | some bucket =>
    let bucket' := add_variant_name bucket location_name
    let s1 := (s.saveBucket bucket')
    .ok (bucket', addToLocationIndex s1 bucket' location_name normalized)
  | none =>
    let s' := interfere s
    if s'.buckets.any (fun b => b.h3_index = h3i) then .error .bucketConflict
    else
      let bucket : Bucket :=
        ⟨s'.nextId, h3i, h.center h3i, normalized,
         if location_name ≠ [] then [location_name] else [], 0⟩
      let s1 : Store :=
        { s' with buckets := s'.buckets ++ [bucket], nextId := s'.nextId + 1 }
      .ok (bucket, addToLocationIndex s1 bucket location_name normalized)

/-- `PropertySerializer.validate` errors (`serializers.py`). -/
inductive ValidationError where
  | latOutOfRange
  | lngOutOfRange
deriving DecidableEq

/-- `PropertySerializer.validate`: the surrounding service's coordinate
range check (lat first, then lng). -/
def serializer_validate (lat lng : ℚ) : Except ValidationError Unit :=
  if lat < -90 ∨ lat > 90 then .error .latOutOfRange
  else if lng < -180 ∨ lng > 180 then .error .lngOutOfRange
  else .ok ()

/-! ### `location_matcher.py` -/

/-- `LocationMatcher._validate_coords`: Nigeria bounds sanity check. -/
def validate_coords (lat lng : ℚ) : Bool :=
  4 ≤ lat ∧ lat ≤ 14 ∧ 3 ≤ lng ∧ lng ≤ 15

/-- Case-insensitive equality (Django `__iexact`). -/
def eqNoCase (a b : Str) : Bool := a.map pyLower = b.map pyLower

/-- Python's `needle in hay` substring test; `containsSub hay [] = true`. -/
def containsSub (hay needle : Str) : Bool :=
  (List.range (hay.length + 1)).any (fun i => isPre needle (hay.drop i))

/-- `LocationMatcher._exact_name_match` (Layer 1). -/
def exact_name_match (s : Store) (normalized_name : Str) : List Bucket :=
  s.buckets.filter (fun b => eqNoCase b.normalized_name normalized_name)

/-- `LocationMatcher._is_name_match`: exact, either-way containment, or
trigram similarity ≥ 0.8. -/
def is_name_match (search_name bucket_name : Str) : Bool :=
  search_name = bucket_name
  || containsSub bucket_name search_name
  || containsSub search_name bucket_name
  || calculate_similarity search_name bucket_name ≥ (8 : ℚ) / 10

/-- `LocationMatcher._check_variant_names`. -/
def check_variant_names (search_name : Str) (variant_names : List Str) : Bool :=
  variant_names.any (fun v => is_name_match search_name (normalize v))

/-- `LocationMatcher._spatial_name_match` (Layer 2). -/
def spatial_name_match (h : H3) (s : Store) (normalized_name : Str)
    (lat lng : ℚ) : List Bucket :=
  let cells := h.disk1 (h.cellOf (lat, lng))
  let bs := s.buckets.filter (fun b => b.h3_index ∈ cells)
  bs.filter (fun b =>
    is_name_match normalized_name b.normalized_name
    || check_variant_names normalized_name b.variant_names)

/-- Looking a `LocationIndex` row's `bucket` foreign key up in the store. -/
def entryBucket (s : Store) (e : IndexEntry) : Option Bucket :=
  s.buckets.find? (fun b => b.id = e.bucket_id)

/-- Helper for `lev`: given `f = lev as`, computes `lev (a :: as)` by
structural recursion on the second string. -/
def levGo (f : Str → Nat) (a : Char) : Str → Nat
  | [] => f [] + 1
  | b :: bs =>
    if a = b then f bs
    else 1 + min (f (b :: bs)) (min (levGo f a bs) (f bs))

/-- `Levenshtein.distance` from the `python-Levenshtein` dependency:
unit-cost insert/delete/substitute edit distance. -/
def lev : Str → Str → Nat
  | [] => List.length
  | a :: as => levGo (lev as) a

/-- `LocationMatcher._fuzzy_name_match` (Layer 3): Levenshtein scan,
trigram-containment index probe (`icontains` of the first 3 characters,
keep at similarity ≥ 0.6), metaphone probe (skipped entirely when the
query's metaphone is empty). -/
def fuzzy_name_match (s : Store) (normalized_name : Str) : List Bucket :=
  let levPart := s.buckets.filter
    (fun b => lev normalized_name b.normalized_name ≤ 2)
  let triEntries := s.entries.filter
    (fun e => containsSub (e.normalized_name.map pyLower)
      ((normalized_name.take 3).map pyLower))
  let triPart := (triEntries.filter
    (fun e => calculate_similarity normalized_name e.normalized_name ≥ (6 : ℚ) / 10)).filterMap
    (entryBucket s)
  let meta := metaphone_simple normalized_name
  let metaPart :=
    if meta ≠ [] then
      (s.entries.filter (fun e => e.metaphone = meta)).filterMap (entryBucket s)
    else []
  levPart ++ triPart ++ metaPart

/-- Helper for `deduplicate_buckets`; `seen` collects the ids kept so far. -/
def dedupAux (seen : List Nat) : List Bucket → List Bucket
  | [] => []
  | b :: t => if b.id ∈ seen then dedupAux seen t else b :: dedupAux (b.id :: seen) t

/-- `LocationMatcher._deduplicate_buckets`: keep the first occurrence of
every bucket id, preserving order. -/
def deduplicate_buckets (bs : List Bucket) : List Bucket := dedupAux [] bs

/-- `LocationMatcher.find_matching_buckets`: the cascade.  Layer 2 runs only
when both coordinates are supplied and pass `validate_coords`; each early
exit and the final return deduplicate the accumulated list. -/
def find_matching_buckets (h : H3) (s : Store) (search_term : Str)
    (lat lng : Option ℚ) (min_results : Nat) : List Bucket :=
  if search_term = [] then []
  else
    let ns := normalize search_term
    let l1 := exact_name_match s ns
    if min_results ≤ l1.length then deduplicate_buckets l1
    else
      match lat, lng with
      | some la, some ln =>
        if validate_coords la ln then
          let acc := l1 ++ spatial_name_match h s ns la ln
          if min_results ≤ acc.length then deduplicate_buckets acc
          else deduplicate_buckets (acc ++ fuzzy_name_match s ns)
        else deduplicate_buckets (l1 ++ fuzzy_name_match s ns)
      | _, _ => deduplicate_buckets (l1 ++ fuzzy_name_match s ns)

/-- The accumulated layer results of `find_matching_buckets`, before the
final `_deduplicate_buckets` call: same control flow, no deduplication. -/
def accumulated_layers (h : H3) (s : Store) (search_term : Str)
    (lat lng : Option ℚ) (min_results : Nat) : List Bucket :=
  if search_term = [] then []
  else
    let ns := normalize search_term
    let l1 := exact_name_match s ns
    if min_results ≤ l1.length then l1
    else
      match lat, lng with
      | some la, some ln =>
        if validate_coords la ln then
          let acc := l1 ++ spatial_name_match h s ns la ln
          if min_results ≤ acc.length then acc
          else acc ++ fuzzy_name_match s ns
        else l1 ++ fuzzy_name_match s ns
      | _, _ => l1 ++ fuzzy_name_match s ns

/-! ### Concrete fixtures used by closed theorems -/

/-- A concrete `H3` instance for closed evaluations (constant cell map). -/
def constH3 : H3 := ⟨fun _ => "c".data, fun _ => (0, 0), fun c => [c]⟩

/-- A bucket another caller creates for cell `"c"` during the race window. -/
def conflictBucket : Bucket := ⟨7, "c".data, (0, 0), [], [], 0⟩

/-- Interference committing `conflictBucket` between check and create. -/
def interfereConflict : Store → Store :=
  fun s => { s with buckets := s.buckets ++ [conflictBucket] }

/-- A concrete two-bucket store (canonical names `"ab"` and `"sangotedo"`). -/
def storeAB : Store :=
  ⟨[⟨0, "c".data, (0, 0), "ab".data, ["ab".data], 0⟩,
    ⟨1, "d".data, (0, 0), "sangotedo".data, ["sangotedo".data], 0⟩], [], 2⟩

/-- Store well-formedness, maintained by the schema and the service:
primary keys are unique and below the autoincrement counter, `h3_index`
is unique (`unique=True` on `GeoBucket.h3_index`), and variant lists hold
no duplicates and no empty string (`add_variant_name` checks membership
and truthiness; `create` seeds `[location_name]` only when non-empty). -/
def WF (s : Store) : Prop :=
  (s.buckets.map Bucket.id).Nodup ∧
  (s.buckets.map Bucket.h3_index).Nodup ∧
  (∀ b ∈ s.buckets, b.id < s.nextId) ∧
  (∀ b ∈ s.buckets, b.variant_names.Nodup) ∧
  (∀ b ∈ s.buckets, [] ∉ b.variant_names)

/-! ### Theorems -/

/-- C9: for the empty query string, `find_matching_buckets` returns the
empty list for every store, h3 instance, coordinate pair and
`min_results` — no layer runs and the result does not depend on the
store's content. -/
theorem c9_empty_query (h h' : H3) (s s' : Store) (lat lng lat' lng' : Option ℚ)
    (minr minr' : Nat) :
    find_matching_buckets h s [] lat lng minr = [] ∧
    find_matching_buckets h s [] lat lng minr =
      find_matching_buckets h' s' [] lat' lng' minr' := by
  simp [find_matching_buckets]

/-- C1 (amended): the coordinate range check lives only in the surrounding
service: `PropertySerializer.validate` rejects an out-of-range latitude,
while the core `find_or_create_bucket` performs no range check at all — it
depends on the coordinates only through the h3 cell mapping, so it treats
an out-of-range coordinate exactly like any in-range coordinate of the
same cell. -/
theorem c1_range_check_only_in_serializer (h : H3) (lat lng lat' lng' : ℚ)
    (nm : Str) (s : Store) (hlat : lat < -90 ∨ 90 < lat)
    (hcell : h.cellOf (lat, lng) = h.cellOf (lat', lng')) :
    serializer_validate lat lng = .error .latOutOfRange ∧
    find_or_create_bucket h lat lng nm s = find_or_create_bucket h lat' lng' nm s := by
  constructor
  · have : lat < -90 ∨ lat > 90 := hlat
    simp [serializer_validate, this]
  · simp only [find_or_create_bucket, hcell]

theorem c1_range_check_only_in_serializer_witness :
    serializer_validate 100 0 = .error .latOutOfRange ∧
    find_or_create_bucket constH3 100 0 "x".data emptyStore =
      find_or_create_bucket constH3 0 0 "x".data emptyStore :=
  c1_range_check_only_in_serializer constH3 100 0 0 0 "x".data emptyStore
    (by norm_num) rfl

/-- C1 counterexample: at the out-of-range input `lat = 100` the core
call does not fail — `find_or_create_bucket` has no `InvalidCoordinate`
path and returns an ordinary freshly created bucket; only the surrounding
serializer rejects the coordinate. -/
theorem c1_counterexample :
    serializer_validate 100 0 = .error .latOutOfRange ∧
    (find_or_create_bucket constH3 100 0 "x".data emptyStore).1 =
      ⟨0, "c".data, (0, 0), "x".data, ["x".data], 0⟩ := by
  constructor
  · norm_num [serializer_validate]
  · rfl

/-- C2 (amended): sequentially (no interference between the existence
check and the create) `find_or_create_bucket` never surfaces a conflict;
but when a concurrent writer makes the cell id appear between the check
and the create, the store's uniqueness violation is returned to the
caller as `bucketConflict` — the source wraps the create in no
`try/except` and performs no re-fetch, so the conflict is surfaced
exactly when the cell was absent at the check and present at create
time. -/
theorem c2_conflict_is_surfaced (h : H3) (f : Store → Store) (lat lng : ℚ)
    (nm : Str) (s : Store) :
    (∃ r, find_or_create_bucket_race h (fun t => t) lat lng nm s = .ok r) ∧
    (find_or_create_bucket_race h f lat lng nm s = .error .bucketConflict ↔
      (∀ b ∈ s.buckets, b.h3_index ≠ h.cellOf (lat, lng)) ∧
      ∃ b ∈ (f s).buckets, b.h3_index = h.cellOf (lat, lng)) := by
  cases hfind : s.buckets.find? (fun b => b.h3_index = h.cellOf (lat, lng)) with
  | some bucket =>
    have hmem := List.mem_of_find?_eq_some hfind
    have hpred := List.find?_some hfind
    simp only [decide_eq_true_eq] at hpred
    have heq : ∀ g : Store → Store, find_or_create_bucket_race h g lat lng nm s =
        .ok (add_variant_name bucket nm,
          addToLocationIndex (Store.saveBucket s (add_variant_name bucket nm))
            (add_variant_name bucket nm) nm (normalize nm)) := by
      intro g
      simp only [find_or_create_bucket_race, hfind]
    constructor
    · exact ⟨_, heq _⟩
    · rw [heq f]
      constructor
      · intro hcontra; exact absurd hcontra (by simp)
      · rintro ⟨hall, -⟩; exact absurd hpred (hall bucket hmem)
  | none =>
    have hall : ∀ b ∈ s.buckets, b.h3_index ≠ h.cellOf (lat, lng) := by
      intro b hb
      have := List.find?_eq_none.mp hfind b hb
      simpa using this
    constructor
    · have hany0 : s.buckets.any (fun b => b.h3_index = h.cellOf (lat, lng)) = false := by
        simp only [List.any_eq_false, decide_eq_true_eq]
        exact hall
      refine ⟨(⟨s.nextId, h.cellOf (lat, lng), h.center (h.cellOf (lat, lng)),
          normalize nm, if nm ≠ [] then [nm] else [], 0⟩,
        addToLocationIndex
          { s with
             buckets := s.buckets ++
               [⟨s.nextId, h.cellOf (lat, lng), h.center (h.cellOf (lat, lng)),
                 normalize nm, if nm ≠ [] then [nm] else [], 0⟩],
             nextId := s.nextId + 1 }
          ⟨s.nextId, h.cellOf (lat, lng), h.center (h.cellOf (lat, lng)),
            normalize nm, if nm ≠ [] then [nm] else [], 0⟩ nm (normalize nm)), ?_⟩
      simp only [find_or_create_bucket_race, hfind, hany0, Bool.false_eq_true,
        if_false]
    · by_cases hany : (f s).buckets.any (fun b => b.h3_index = h.cellOf (lat, lng)) = true
      · have heq : find_or_create_bucket_race h f lat lng nm s = .error .bucketConflict := by
          simp only [find_or_create_bucket_race, hfind, hany, if_true]
        rw [heq]
        simp only [List.any_eq_true, decide_eq_true_eq] at hany
        simpa using ⟨hall, hany⟩
      · have hany' := hany
        rw [Bool.not_eq_true, List.any_eq_false] at hany'
        have heq : find_or_create_bucket_race h f lat lng nm s = .ok
            (⟨(f s).nextId, h.cellOf (lat, lng), h.center (h.cellOf (lat, lng)),
              normalize nm, if nm ≠ [] then [nm] else [], 0⟩,
             addToLocationIndex
               { f s with
                  buckets := (f s).buckets ++
                    [⟨(f s).nextId, h.cellOf (lat, lng), h.center (h.cellOf (lat, lng)),
                      normalize nm, if nm ≠ [] then [nm] else [], 0⟩],
                  nextId := (f s).nextId + 1 }
               ⟨(f s).nextId, h.cellOf (lat, lng), h.center (h.cellOf (lat, lng)),
                 normalize nm, if nm ≠ [] then [nm] else [], 0⟩ nm (normalize nm)) := by
          simp only [find_or_create_bucket_race, hfind]
          rw [if_neg hany]
        rw [heq]
        constructor
        · intro hcontra; exact absurd hcontra (by simp)
        · rintro ⟨-, b, hb, hbeq⟩
          have := hany' b hb
          simp only [decide_eq_true_eq] at this
          exact absurd hbeq this

/-- C2 counterexample: from the empty store, with a concurrent writer
creating a bucket for the same cell between the existence check and the
create, the call returns `bucketConflict` to the caller — the conflict is
not recovered internally. -/
theorem c2_counterexample :
    find_or_create_bucket_race constH3 interfereConflict 0 0 "x".data emptyStore
      = .error .bucketConflict := by
  rfl

/-- C6 (amended): `calculate_similarity` always lies in `[0, 1]` and is
the Jaccard index of the trigram sets when both are non-empty; but the
special cases differ from the claim: an empty string on either side gives
`0` even when both strings are equal, and when both strings are non-empty
with an empty trigram set the tie-break is case-insensitive equality, not
exact equality. -/
theorem c6_similarity_spec (a b : Str) :
    0 ≤ calculate_similarity a b ∧ calculate_similarity a b ≤ 1 ∧
    (a = [] ∨ b = [] → calculate_similarity a b = 0) ∧
    (a ≠ [] → b ≠ [] → trigramSet a ≠ ∅ → trigramSet b ≠ ∅ →
      calculate_similarity a b =
        ((trigramSet a ∩ trigramSet b).card : ℚ) /
          ((trigramSet a ∪ trigramSet b).card : ℚ)) ∧
    (a ≠ [] → b ≠ [] → (trigramSet a = ∅ ∨ trigramSet b = ∅) →
      calculate_similarity a b =
        if a.map pyLower = b.map pyLower then 1 else 0) := by
  by_cases hab : a = [] ∨ b = []
  · refine ⟨?_, ?_, ?_, ?_, ?_⟩ <;>
      simp_all [calculate_similarity] <;> rcases hab with h | h <;> simp_all
  · push_neg at hab
    by_cases htri : trigramSet a = ∅ ∨ trigramSet b = ∅
    · have hsim : calculate_similarity a b =
          if a.map pyLower = b.map pyLower then 1 else 0 := by
        simp only [calculate_similarity, hab.1, hab.2, or_self, if_false]
        rw [if_pos htri]
      refine ⟨?_, ?_, ?_, ?_, ?_⟩
      · rw [hsim]; split <;> norm_num
      · rw [hsim]; split <;> norm_num
      · rintro (h | h) <;> [exact absurd h hab.1; exact absurd h hab.2]
      · intro _ _ ha hb; rcases htri with h | h <;> [exact absurd h ha; exact absurd h hb]
      · intro _ _ _; exact hsim
    · push_neg at htri
      have hne : (trigramSet a ∪ trigramSet b).Nonempty := by
        rcases Finset.nonempty_iff_ne_empty.mpr htri.1 with ⟨x, hx⟩
        exact ⟨x, Finset.mem_union_left _ hx⟩
      have hcard : 0 < (trigramSet a ∪ trigramSet b).card := Finset.card_pos.mpr hne
      have hsim : calculate_similarity a b =
          ((trigramSet a ∩ trigramSet b).card : ℚ) /
            ((trigramSet a ∪ trigramSet b).card : ℚ) := by
        simp only [calculate_similarity, hab.1, hab.2, or_self, if_false]
        rw [if_neg (by rcases htri with ⟨h1, h2⟩; simp [h1, h2]), if_pos hcard]
      have hle : (trigramSet a ∩ trigramSet b).card ≤
          (trigramSet a ∪ trigramSet b).card :=
        Finset.card_le_card (fun x hx =>
          Finset.mem_union_left _ (Finset.mem_of_mem_inter_left hx))
      refine ⟨?_, ?_, ?_, ?_, ?_⟩
      · rw [hsim]; positivity
      · rw [hsim]
        rw [div_le_one (by exact_mod_cast hcard)]
        exact_mod_cast hle
      · rintro (h | h) <;> [exact absurd h hab.1; exact absurd h hab.2]
      · intro _ _ _ _; exact hsim
      · rintro _ _ (h | h) <;> [exact absurd h htri.1; exact absurd h htri.2]

theorem c6_similarity_spec_witness : calculate_similarity "AB".data "ab".data = 1 := by
  have h := (c6_similarity_spec "AB".data "ab".data).2.2.2.2
    (by decide) (by decide) (Or.inl (by decide))
  rw [h]
  decide

/-- C6 counterexample: with an empty trigram set the tie-break is
case-insensitive, not exact: `"A"` and `"a"` are not exactly equal, yet
the similarity is `1`, where the claim's exact-equality special case
demands `0`. -/
theorem c6_counterexample :
    calculate_similarity "A".data "a".data = 1 ∧ "A".data ≠ "a".data := by
  constructor
  · decide
  · decide

/-! #### Deduplication lemmas (C8) -/

theorem dedupAux_sublist : ∀ (l : List Bucket) (seen : List Nat),
    (dedupAux seen l).Sublist l := by
  intro l
  induction l with
  | nil => intro seen; simp [dedupAux]
  | cons c t ih =>
    intro seen
    simp only [dedupAux]
    split
    · exact (ih seen).cons c
    · exact (ih (c.id :: seen)).cons₂ c

theorem mem_dedupAux : ∀ {l : List Bucket} {seen : List Nat} {b : Bucket},
    b ∈ dedupAux seen l →
    b.id ∉ seen ∧ l.find? (fun x => x.id = b.id) = some b := by
  intro l
  induction l with
  | nil => intro seen b hb; simp [dedupAux] at hb
  | cons c t ih =>
    intro seen b hb
    simp only [dedupAux] at hb
    by_cases hc : c.id ∈ seen
    · rw [if_pos hc] at hb
      obtain ⟨hns, hfind⟩ := ih hb
      refine ⟨hns, ?_⟩
      rw [List.find?_cons_of_neg, hfind]
      simp only [decide_eq_true_eq]
      intro hceq
      exact hns (hceq ▸ hc)
    · rw [if_neg hc] at hb
      rcases List.mem_cons.mp hb with rfl | hb'
      · exact ⟨hc, by rw [List.find?_cons_of_pos] <;> simp⟩
      · obtain ⟨hns, hfind⟩ := ih hb'
        have hbc : b.id ≠ c.id := fun hx => hns (by simp [hx])
        have hbs : b.id ∉ seen := fun hx => hns (by simp [hx])
        refine ⟨hbs, ?_⟩
        rw [List.find?_cons_of_neg, hfind]
        simp only [decide_eq_true_eq]
        exact fun hx => hbc hx.symm

theorem dedupAux_id_nodup : ∀ (l : List Bucket) (seen : List Nat),
    ((dedupAux seen l).map Bucket.id).Nodup := by
  intro l
  induction l with
  | nil => intro seen; simp [dedupAux]
  | cons c t ih =>
    intro seen
    simp only [dedupAux]
    split
    · exact ih seen
    · simp only [List.map_cons, List.nodup_cons]
      refine ⟨?_, ih (c.id :: seen)⟩
      intro hmem
      obtain ⟨b, hb, hbid⟩ := List.mem_map.mp hmem
      have := (mem_dedupAux hb).1
      exact this (by simp [hbid])

theorem dedupAux_complete : ∀ (l : List Bucket) (seen : List Nat) (b : Bucket),
    b ∈ l → b.id ∈ seen ∨ ∃ c ∈ dedupAux seen l, c.id = b.id := by
  intro l
  induction l with
  | nil => intro seen b hb; simp at hb
  | cons c t ih =>
    intro seen b hb
    simp only [dedupAux]
    by_cases hc : c.id ∈ seen
    · rw [if_pos hc]
      rcases List.mem_cons.mp hb with rfl | hb'
      · exact Or.inl hc
      · exact ih seen b hb'
    · rw [if_neg hc]
      rcases List.mem_cons.mp hb with rfl | hb'
      · exact Or.inr ⟨b, List.mem_cons_self _ _, rfl⟩
      · rcases ih (c.id :: seen) b hb' with hin | ⟨d, hd, hdeq⟩
        · rcases List.mem_cons.mp hin with heq | hin'
          · exact Or.inr ⟨c, List.mem_cons_self _ _, heq.symm⟩
          · exact Or.inl hin'
        · exact Or.inr ⟨d, List.mem_cons_of_mem _ hd, hdeq⟩

theorem find_matching_eq_dedup (h : H3) (s : Store) (q : Str)
    (lat lng : Option ℚ) (minr : Nat) :
    find_matching_buckets h s q lat lng minr =
      deduplicate_buckets (accumulated_layers h s q lat lng minr) := by
  by_cases hq : q = []
  · simp [hq, find_matching_buckets, accumulated_layers, deduplicate_buckets,
      dedupAux]
  · rcases lat with _ | la <;> rcases lng with _ | ln <;>
      simp only [find_matching_buckets, accumulated_layers, if_neg hq] <;>
      split_ifs <;> rfl

/-- C8: `find_matching_buckets` returns exactly the deduplication-by-id of
the accumulated layer results: a sublist of the accumulation (so
first-seen order is preserved), with each bucket id occurring at most
once, each retained element being the first accumulated element bearing
its id, and no accumulated id dropped. -/
theorem c8_match_dedup_first_seen (h : H3) (s : Store) (q : Str)
    (lat lng : Option ℚ) (minr : Nat) :
    find_matching_buckets h s q lat lng minr =
      deduplicate_buckets (accumulated_layers h s q lat lng minr) ∧
    ((find_matching_buckets h s q lat lng minr).map Bucket.id).Nodup ∧
    (find_matching_buckets h s q lat lng minr).Sublist
      (accumulated_layers h s q lat lng minr) ∧
    (∀ b ∈ find_matching_buckets h s q lat lng minr,
      (accumulated_layers h s q lat lng minr).find?
        (fun x => x.id = b.id) = some b) ∧
    (∀ b ∈ accumulated_layers h s q lat lng minr,
      ∃ c ∈ find_matching_buckets h s q lat lng minr, c.id = b.id) := by
  have hfd := find_matching_eq_dedup h s q lat lng minr
  rw [hfd]
  simp only [deduplicate_buckets]
  refine ⟨trivial, dedupAux_id_nodup _ _, dedupAux_sublist _ _, ?_, ?_⟩
  · intro b hb; exact (mem_dedupAux hb).2
  · intro b hb
    rcases dedupAux_complete _ [] b hb with hin | hex
    · simp at hin
    · exact hex

/-! #### Empty-normalization cascade (C10) -/

theorem lev_nil (b : Str) : lev [] b = b.length := rfl

theorem containsSub_nil (hay : Str) : containsSub hay [] = true := by
  simp only [containsSub, List.any_eq_true]
  exact ⟨0, by simp, by simp [isPre]⟩

theorem sim_nil_left (x : Str) : calculate_similarity [] x = 0 := by
  simp [calculate_similarity]

theorem fuzzy_empty (s : Store) :
    fuzzy_name_match s [] =
      s.buckets.filter (fun b => b.normalized_name.length ≤ 2) := by
  unfold fuzzy_name_match
  have h2 : ∀ l : List IndexEntry,
      l.filter (fun e => calculate_similarity [] e.normalized_name ≥ (6 : ℚ) / 10) = [] := by
    intro l
    apply List.filter_eq_nil.mpr
    intro e _
    simp only [sim_nil_left, decide_eq_true_eq]
    norm_num
  have h3 : metaphone_simple [] = [] := rfl
  simp [h2, h3, lev_nil]

/-- C10: a non-empty query whose normalization is empty is not
short-circuited: the cascade runs with the empty normalized query, and in
Layer 3 the Levenshtein sub-layer keeps exactly the buckets whose
canonical name has length ≤ 2 (distance from the empty string is the
name's length), the trigram sub-layer contributes nothing (similarity
against the empty string is 0 < 0.6), and the metaphone sub-layer is
skipped (empty phonetic code). -/
theorem c10_empty_normalized_query (h : H3) (s : Store) (q : Str)
    (minr : Nat) (hq : q ≠ []) (hn : normalize q = []) :
    fuzzy_name_match s (normalize q) =
      s.buckets.filter (fun b => b.normalized_name.length ≤ 2) ∧
    find_matching_buckets h s q none none minr =
      (if minr ≤ (exact_name_match s (normalize q)).length then
        deduplicate_buckets (exact_name_match s (normalize q))
      else
        deduplicate_buckets (exact_name_match s (normalize q) ++
          s.buckets.filter (fun b => b.normalized_name.length ≤ 2))) := by
  constructor
  · rw [hn]; exact fuzzy_empty s
  · simp only [find_matching_buckets, if_neg hq]
    split_ifs with hlen
    · rfl
    · rw [hn, fuzzy_empty]

theorem c10_empty_normalized_query_witness :
    fuzzy_name_match storeAB (normalize "!!!".data) =
      storeAB.buckets.filter (fun b => b.normalized_name.length ≤ 2) ∧
    find_matching_buckets constH3 storeAB "!!!".data none none 5 =
      (if 5 ≤ (exact_name_match storeAB (normalize "!!!".data)).length then
        deduplicate_buckets (exact_name_match storeAB (normalize "!!!".data))
      else
        deduplicate_buckets (exact_name_match storeAB (normalize "!!!".data) ++
          storeAB.buckets.filter (fun b => b.normalized_name.length ≤ 2))) :=
  c10_empty_normalized_query constH3 storeAB "!!!".data 5 (by decide) (by rfl)

/-! #### `find_or_create_bucket` lemmas (C5, C7) -/

theorem add_variant_name_id (b : Bucket) (nm : Str) :
    (add_variant_name b nm).id = b.id := by
  unfold add_variant_name; split <;> rfl

theorem add_variant_name_h3 (b : Bucket) (nm : Str) :
    (add_variant_name b nm).h3_index = b.h3_index := by
  unfold add_variant_name; split <;> rfl

theorem addToLocationIndex_buckets (s : Store) (b : Bucket) (o n : Str) :
    (addToLocationIndex s b o n).buckets = s.buckets := by
  unfold addToLocationIndex; split <;> rfl

theorem find?_append_none {α : Type} (p : α → Bool) {l1 : List α} (l2 : List α)
    (h : l1.find? p = none) : (l1 ++ l2).find? p = l2.find? p := by
  induction l1 with
  | nil => simp
  | cons c t ih =>
    have hpc : p c = false := by
      by_cases hx : p c = true
      · rw [List.find?_cons_of_pos _ hx] at h; exact absurd h (by simp)
      · simpa using hx
    rw [List.find?_cons_of_neg _ (by simp [hpc])] at h
    rw [List.cons_append, List.find?_cons_of_neg _ (by simp [hpc])]
    exact ih h

/-- `find?` over the `saveBucket` image: replacing the row whose id is that
of the first match (by a row with the same cell id) makes the replacement
the first match. -/
theorem find?_saveBucket {l : List Bucket} {cell : Str} {b0 b1 : Bucket}
    (hids : (l.map Bucket.id).Nodup)
    (hfind : l.find? (fun b => b.h3_index = cell) = some b0)
    (hid : b1.id = b0.id) (hh3 : b1.h3_index = b0.h3_index) :
    (l.map (fun x => if x.id = b1.id then b1 else x)).find?
      (fun b => b.h3_index = cell) = some b1 := by
  induction l with
  | nil => simp at hfind
  | cons c t ih =>
    by_cases hc : c.h3_index = cell
    · rw [List.find?_cons_of_pos _ (by simpa using hc)] at hfind
      have hb0 : c = b0 := Option.some.inj hfind
      have hhead : (if c.id = b1.id then b1 else c) = b1 := by
        rw [if_pos]
        rw [hid, ← hb0]
      simp only [List.map_cons, hhead]
      rw [List.find?_cons_of_pos _
        (by simp only [decide_eq_true_eq]; rw [hh3, ← hb0]; exact hc)]
    · rw [List.find?_cons_of_neg _ (by simpa using hc)] at hfind
      have hb0t : b0 ∈ t := List.mem_of_find?_eq_some hfind
      have hcb0 : c.id ≠ b0.id := by
        simp only [List.map_cons, List.nodup_cons] at hids
        exact fun hx => hids.1 (hx ▸ List.mem_map_of_mem Bucket.id hb0t)
      have hhead : (if c.id = b1.id then b1 else c) = c :=
        if_neg (fun hx => hcb0 (hx.trans hid))
      simp only [List.map_cons, hhead]
      rw [List.find?_cons_of_neg _ (by simpa using hc)]
      exact ih (by simp only [List.map_cons, List.nodup_cons] at hids; exact hids.2) hfind

theorem countZero_of_not_mem {l : List Str} {a : Str} (h : a ∉ l) :
    l.count a = 0 := by
  induction l with
  | nil => rfl
  | cons c t ih =>
    have h1 : a ≠ c ∧ a ∉ t := by
      constructor
      · rintro rfl; exact h (List.mem_cons_self _ _)
      · exact fun hx => h (List.mem_cons_of_mem _ hx)
    rw [List.count_cons, ih h1.2, if_neg (by simpa using h1.1.symm)]

theorem countOne_of_nodup_mem {l : List Str} {a : Str} (hn : l.Nodup)
    (ha : a ∈ l) : l.count a = 1 := by
  induction l with
  | nil => cases ha
  | cons c t ih =>
    rw [List.count_cons]
    rcases List.mem_cons.mp ha with rfl | hat
    · rw [countZero_of_not_mem (List.nodup_cons.mp hn).1, if_pos (by simp)]
    · have hc : a ≠ c := by
        rintro rfl; exact (List.nodup_cons.mp hn).1 hat
      rw [ih (List.nodup_cons.mp hn).2 hat, if_neg (by simpa using hc.symm)]

/-- The found-branch of `find_or_create_bucket`, extracted. -/
theorem foc_found (h : H3) (lat lng : ℚ) (nm : Str) (s : Store) (b0 : Bucket)
    (hfind : s.buckets.find? (fun b => b.h3_index = h.cellOf (lat, lng)) = some b0) :
    find_or_create_bucket h lat lng nm s =
      (add_variant_name b0 nm,
       addToLocationIndex (Store.saveBucket s (add_variant_name b0 nm))
         (add_variant_name b0 nm) nm (normalize nm)) := by
  simp only [find_or_create_bucket, hfind]

/-- The create-branch of `find_or_create_bucket`, extracted. -/
theorem foc_none (h : H3) (lat lng : ℚ) (nm : Str) (s : Store)
    (hfind : s.buckets.find? (fun b => b.h3_index = h.cellOf (lat, lng)) = none) :
    find_or_create_bucket h lat lng nm s =
      (⟨s.nextId, h.cellOf (lat, lng), h.center (h.cellOf (lat, lng)),
         normalize nm, if nm ≠ [] then [nm] else [], 0⟩,
       addToLocationIndex
         { s with
            buckets := s.buckets ++
              [⟨s.nextId, h.cellOf (lat, lng), h.center (h.cellOf (lat, lng)),
                normalize nm, if nm ≠ [] then [nm] else [], 0⟩],
            nextId := s.nextId + 1 }
         ⟨s.nextId, h.cellOf (lat, lng), h.center (h.cellOf (lat, lng)),
           normalize nm, if nm ≠ [] then [nm] else [], 0⟩ nm (normalize nm)) := by
  simp only [find_or_create_bucket, hfind]

/-- C5 (amended): from any well-formed store, two successive
`find_or_create_bucket` calls with identical arguments return the same
bucket identity; when `rawName` is non-empty it then occurs exactly once
in the returned bucket's `variant_names`, but an empty `rawName` is never
added, so it occurs zero times — not once as the claim states for every
`rawName`. -/
theorem c5_assign_idempotent (h : H3) (lat lng : ℚ) (nm : Str) (s : Store)
    (hwf : WF s) :
    (find_or_create_bucket h lat lng nm
        (find_or_create_bucket h lat lng nm s).2).1.id =
      (find_or_create_bucket h lat lng nm s).1.id ∧
    (nm ≠ [] →
      (find_or_create_bucket h lat lng nm
        (find_or_create_bucket h lat lng nm s).2).1.variant_names.count nm = 1) ∧
    (nm = [] →
      (find_or_create_bucket h lat lng nm
        (find_or_create_bucket h lat lng nm s).2).1.variant_names.count nm = 0) := by
  obtain ⟨hids, hh3s, hlt, hnodupv, hnoempty⟩ := hwf
  cases hfind : s.buckets.find? (fun b => b.h3_index = h.cellOf (lat, lng)) with
  | some b0 =>
    have h1 := foc_found h lat lng nm s b0 hfind
    have hbuckets : (find_or_create_bucket h lat lng nm s).2.buckets =
        s.buckets.map
          (fun x => if x.id = (add_variant_name b0 nm).id then
            add_variant_name b0 nm else x) := by
      rw [h1, addToLocationIndex_buckets]
      rfl
    have hfind2 : ((find_or_create_bucket h lat lng nm s).2.buckets).find?
        (fun b => b.h3_index = h.cellOf (lat, lng)) = some (add_variant_name b0 nm) := by
      rw [hbuckets]
      exact find?_saveBucket hids hfind (add_variant_name_id b0 nm)
        (add_variant_name_h3 b0 nm)
    have h2 := foc_found h lat lng nm _ _ hfind2
    refine ⟨?_, ?_, ?_⟩
    · rw [h2, h1]
      simp [add_variant_name_id]
    · intro hnm
      rw [h2]
      dsimp only
      by_cases hmem : nm ∈ b0.variant_names
      · have hb1b0 : add_variant_name b0 nm = b0 := by
          rw [add_variant_name, if_neg (fun hcond => hcond.2 hmem)]
        rw [hb1b0]
        rw [add_variant_name, if_neg (fun hcond => hcond.2 hmem)]
        exact countOne_of_nodup_mem
          (hnodupv b0 (List.mem_of_find?_eq_some hfind)) hmem
      · have hb1v : (add_variant_name b0 nm).variant_names =
            b0.variant_names ++ [nm] := by
          rw [add_variant_name, if_pos ⟨hnm, hmem⟩]
        have hmem1 : nm ∈ (add_variant_name b0 nm).variant_names := by
          rw [hb1v]; simp
        rw [add_variant_name, if_neg (fun hcond => hcond.2 hmem1)]
        rw [hb1v, List.count_append, countZero_of_not_mem hmem]
        simp
    · intro hnm
      subst hnm
      rw [h2]
      dsimp only
      have hb1b0 : add_variant_name b0 [] = b0 := by
        rw [add_variant_name, if_neg (fun hcond => hcond.1 rfl)]
      rw [hb1b0]
      rw [add_variant_name, if_neg (fun hcond => hcond.1 rfl)]
      exact countZero_of_not_mem
        (hnoempty b0 (List.mem_of_find?_eq_some hfind))
  | none =>
    have h1 := foc_none h lat lng nm s hfind
    have hbuckets : (find_or_create_bucket h lat lng nm s).2.buckets =
        s.buckets ++
          [⟨s.nextId, h.cellOf (lat, lng), h.center (h.cellOf (lat, lng)),
            normalize nm, if nm ≠ [] then [nm] else [], 0⟩] := by
      rw [h1, addToLocationIndex_buckets]
    have hfind2 : ((find_or_create_bucket h lat lng nm s).2.buckets).find?
        (fun b => b.h3_index = h.cellOf (lat, lng)) =
        some ⟨s.nextId, h.cellOf (lat, lng), h.center (h.cellOf (lat, lng)),
          normalize nm, if nm ≠ [] then [nm] else [], 0⟩ := by
      rw [hbuckets, find?_append_none _ _ hfind]
      rw [List.find?_cons_of_pos _ (by simp)]
    have h2 := foc_found h lat lng nm _ _ hfind2
    refine ⟨?_, ?_, ?_⟩
    · rw [h2, h1]
      simp [add_variant_name_id]
    · intro hnm
      rw [h2]
      dsimp only
      have hv : (⟨s.nextId, h.cellOf (lat, lng), h.center (h.cellOf (lat, lng)),
          normalize nm, if nm ≠ [] then [nm] else [], 0⟩ : Bucket).variant_names
          = [nm] := by
        simp [hnm]
      have hmem1 : nm ∈ (⟨s.nextId, h.cellOf (lat, lng),
          h.center (h.cellOf (lat, lng)), normalize nm,
          if nm ≠ [] then [nm] else [], 0⟩ : Bucket).variant_names := by
        rw [hv]; simp
      rw [add_variant_name, if_neg (fun hcond => hcond.2 hmem1), hv]
      simp
    · intro hnm
      subst hnm
      rw [h2]
      dsimp only
      rw [add_variant_name, if_neg (fun hcond => hcond.1 rfl)]
      simp

theorem c5_assign_idempotent_witness :
    (find_or_create_bucket constH3 0 0 "x".data
        (find_or_create_bucket constH3 0 0 "x".data emptyStore).2).1.id =
      (find_or_create_bucket constH3 0 0 "x".data emptyStore).1.id ∧
    ("x".data ≠ [] →
      (find_or_create_bucket constH3 0 0 "x".data
        (find_or_create_bucket constH3 0 0 "x".data emptyStore).2).1.variant_names.count
          "x".data = 1) ∧
    ("x".data = [] →
      (find_or_create_bucket constH3 0 0 "x".data
        (find_or_create_bucket constH3 0 0 "x".data emptyStore).2).1.variant_names.count
          "x".data = 0) :=
  c5_assign_idempotent constH3 0 0 "x".data emptyStore
    ⟨by simp [emptyStore], by simp [emptyStore], by simp [emptyStore],
     by simp [emptyStore], by simp [emptyStore]⟩

/-- C5 counterexample: with the empty `rawName`, after two identical
`assign` calls the raw name occurs zero times — not exactly once — in the
returned bucket's `variant_names` (`add_variant_name` refuses falsy
names and `create` seeds an empty list). -/
theorem c5_counterexample :
    (find_or_create_bucket constH3 0 0 []
        (find_or_create_bucket constH3 0 0 [] emptyStore).2).1.variant_names.count
      ([] : Str) ≠ 1 := by
  decide

/-- C7 (amended): a bucket created or updated by `assign` with a
non-empty `rawName` has non-empty `variant_names`, and `assign` never
shrinks any existing bucket's variant list (it only ever appends); but a
bucket created with the empty `rawName` starts with an empty
`variant_names` list, contradicting the claim's "including the empty
string". -/
theorem c7_variant_names_preserved (h : H3) (lat lng : ℚ) (nm : Str)
    (s : Store) (hids : (s.buckets.map Bucket.id).Nodup) :
    (nm ≠ [] → (find_or_create_bucket h lat lng nm s).1.variant_names ≠ []) ∧
    (∀ b ∈ s.buckets, ∃ b' ∈ (find_or_create_bucket h lat lng nm s).2.buckets,
      b'.id = b.id ∧ ∃ t, b'.variant_names = b.variant_names ++ t) := by
  cases hfind : s.buckets.find? (fun b => b.h3_index = h.cellOf (lat, lng)) with
  | some b0 =>
    have h1 := foc_found h lat lng nm s b0 hfind
    constructor
    · intro hnm
      rw [h1]
      by_cases hmem : nm ∈ b0.variant_names
      · rw [add_variant_name, if_neg (fun hcond => hcond.2 hmem)]
        exact List.ne_nil_of_mem hmem
      · rw [add_variant_name, if_pos ⟨hnm, hmem⟩]
        simp
    · intro b hb
      have hbuckets : (find_or_create_bucket h lat lng nm s).2.buckets =
          s.buckets.map
            (fun x => if x.id = (add_variant_name b0 nm).id then
              add_variant_name b0 nm else x) := by
        rw [h1, addToLocationIndex_buckets]
        rfl
      rw [hbuckets]
      refine ⟨if b.id = (add_variant_name b0 nm).id then add_variant_name b0 nm
          else b, List.mem_map_of_mem _ hb, ?_⟩
      by_cases hid : b.id = (add_variant_name b0 nm).id
      · rw [if_pos hid]
        have hb0mem := List.mem_of_find?_eq_some hfind
        have hbb0 : b = b0 := by
          refine List.inj_on_of_nodup_map hids hb hb0mem ?_
          rw [hid, add_variant_name_id]
        subst hbb0
        refine ⟨add_variant_name_id _ _, ?_⟩
        by_cases hmem : nm ∈ b.variant_names
        · exact ⟨[], by rw [add_variant_name, if_neg (fun hc => hc.2 hmem)]; simp⟩
        · by_cases hnm : nm = []
          · exact ⟨[], by rw [add_variant_name, if_neg (fun hc => hc.1 hnm)]; simp⟩
          · exact ⟨[nm], by rw [add_variant_name, if_pos ⟨hnm, hmem⟩]⟩
      · rw [if_neg hid]
        exact ⟨rfl, [], by simp⟩
  | none =>
    have h1 := foc_none h lat lng nm s hfind
    constructor
    · intro hnm
      rw [h1]
      simp [hnm]
    · intro b hb
      have hbuckets : (find_or_create_bucket h lat lng nm s).2.buckets =
          s.buckets ++
            [⟨s.nextId, h.cellOf (lat, lng), h.center (h.cellOf (lat, lng)),
              normalize nm, if nm ≠ [] then [nm] else [], 0⟩] := by
        rw [h1, addToLocationIndex_buckets]
      rw [hbuckets]
      exact ⟨b, List.mem_append_left _ hb, rfl, [], by simp⟩

theorem c7_variant_names_preserved_witness :
    ("x".data ≠ [] →
      (find_or_create_bucket constH3 0 0 "x".data storeAB).1.variant_names ≠ []) ∧
    (∀ b ∈ storeAB.buckets,
      ∃ b' ∈ (find_or_create_bucket constH3 0 0 "x".data storeAB).2.buckets,
        b'.id = b.id ∧ ∃ t, b'.variant_names = b.variant_names ++ t) :=
  c7_variant_names_preserved constH3 0 0 "x".data storeAB (by decide)

/-- C7 counterexample: `assign` with the empty `rawName` on an empty
store creates a bucket whose `variant_names` is empty, and that bucket
sits in the store — so a bucket does not have non-empty `variant_names`
from the moment it is created. -/
theorem c7_counterexample :
    (find_or_create_bucket constH3 0 0 [] emptyStore).1.variant_names = [] ∧
    (find_or_create_bucket constH3 0 0 [] emptyStore).1 ∈
      (find_or_create_bucket constH3 0 0 [] emptyStore).2.buckets := by
  constructor
  · rfl
  · decide

/-! #### Character-class lemmas (C3, C4) -/

theorem alnum_not_space {c : Char} (h : isLowerAlnum c = true) :
    isPySpace c = false := by
  simp only [isLowerAlnum, decide_eq_true_eq] at h
  simp only [isPySpace, decide_eq_false_iff_not]
  rintro (rfl | rfl | rfl | rfl | rfl | rfl) <;>
    rcases h with ⟨h1, h2⟩ | ⟨h1, h2⟩ <;> revert h1 h2 <;> decide

theorem not_space_of_not_pyspace {c : Char} (h : isPySpace c = false) :
    c ≠ ' ' := by
  rintro rfl
  exact absurd h (by decide)

theorem pyLower_alnum {c : Char} (h : isLowerAlnum c = true) :
    pyLower c = c := by
  simp only [isLowerAlnum, decide_eq_true_eq] at h
  rw [pyLower, if_neg]
  rintro ⟨hA, hZ⟩
  rcases h with ⟨h1, h2⟩ | ⟨h1, h2⟩
  · exact absurd (le_trans h1 hZ) (by decide)
  · exact absurd (le_trans hA h2) (by decide)

/-! #### `replaceL` unfolding equations -/

theorem replaceLF_congr (p r : Str) : ∀ (n m : Nat) (s : Str),
    s.length ≤ n → s.length ≤ m → replaceLF p r n s = replaceLF p r m s := by
  intro n
  induction n with
  | zero =>
    intro m s hn _
    have hs : s = [] := List.eq_nil_of_length_eq_zero (Nat.le_zero.mp hn)
    subst hs
    cases m <;> rfl
  | succ n ih =>
    intro m s hn hm
    cases s with
    | nil => cases m <;> rfl
    | cons c t =>
      cases m with
      | zero => simp at hm
      | succ m' =>
        simp only [List.length_cons] at hn hm
        simp only [replaceLF]
        split_ifs
        · congr 1
          apply ih
          · rw [List.length_drop]
            omega
          · rw [List.length_drop]
            omega
        · congr 1
          apply ih <;> omega

theorem replaceL_cons_pos {p : Str} (r : Str) {c : Char} {t : Str}
    (hp : p ≠ []) (hpre : isPre p (c :: t) = true) :
    replaceL p r (c :: t) = r ++ replaceL p r (t.drop (p.length - 1)) := by
  show replaceLF p r (c :: t).length (c :: t) = _
  simp only [List.length_cons, replaceLF]
  rw [if_pos ⟨hp, hpre⟩]
  congr 1
  apply replaceLF_congr
  · rw [List.length_drop]
    omega
  · exact le_refl _

theorem replaceL_cons_neg {p : Str} (r : Str) {c : Char} {t : Str}
    (hneg : ¬(p ≠ [] ∧ isPre p (c :: t) = true)) :
    replaceL p r (c :: t) = c :: replaceL p r t := by
  show replaceLF p r (c :: t).length (c :: t) = _
  simp only [List.length_cons, replaceLF]
  rw [if_neg hneg]
  rfl

theorem replaceL_append_word {p : Str} (r : Str) {q : Str} (hp : p = ' ' :: q) :
    ∀ (w s : Str), (∀ c ∈ w, c ≠ ' ') → replaceL p r (w ++ s) = w ++ replaceL p r s := by
  intro w
  induction w with
  | nil => intro s _; rfl
  | cons c w' ih =>
    intro s hw
    have hc : c ≠ ' ' := hw c (List.mem_cons_self _ _)
    have hpre : isPre p (c :: (w' ++ s)) = false := by
      rw [hp]
      simp only [isPre, Bool.and_eq_false_iff]
      left
      simp [Ne.symm hc]
    rw [List.cons_append, replaceL_cons_neg r (by simp [hpre]), ih s
      (fun d hd => hw d (List.mem_cons_of_mem _ hd))]
    rfl

theorem replaceL_word_id {p : Str} (r : Str) {q : Str} (hp : p = ' ' :: q)
    (w : Str) (hw : ∀ c ∈ w, c ≠ ' ') : replaceL p r w = w := by
  have h := replaceL_append_word r hp w [] hw
  have h2 : replaceL p r ([] : Str) = [] := rfl
  rw [h2, List.append_nil] at h
  simpa using h

/-! #### Occurrences of `' u '` inside a join of space-free words -/

theorem isPre_pat_word (u : Str) : ∀ (w : Str), (∀ c ∈ w, c ≠ ' ') →
    isPre (u ++ [' ']) w = false := by
  induction u with
  | nil =>
    intro w hw
    cases w with
    | nil => rfl
    | cons b w' =>
      simp only [List.nil_append, isPre, Bool.and_eq_false_iff]
      left
      simp [Ne.symm (hw b (List.mem_cons_self _ _))]
  | cons a u' ih =>
    intro w hw
    cases w with
    | nil => rfl
    | cons b w' =>
      simp only [List.cons_append, isPre, Bool.and_eq_false_iff]
      by_cases hab : a = b
      · right
        exact ih w' (fun d hd => hw d (List.mem_cons_of_mem _ hd))
      · left
        simp [hab]

theorem isPre_pat_join (u : Str) : ∀ (w t : Str),
    (∀ c ∈ u, c ≠ ' ') → (∀ c ∈ w, c ≠ ' ') →
    (isPre (u ++ [' ']) (w ++ ' ' :: t) = true ↔ u = w) := by
  induction u with
  | nil =>
    intro w t _ hw
    cases w with
    | nil => simp [isPre]
    | cons b w' =>
      simp only [List.nil_append, List.cons_append, isPre, Bool.and_eq_true,
        decide_eq_true_eq]
      constructor
      · rintro ⟨hb, -⟩
        exact absurd hb.symm (hw b (List.mem_cons_self _ _))
      · intro hx
        exact absurd hx (by simp)
  | cons a u' ih =>
    intro w t hu hw
    cases w with
    | nil =>
      simp only [List.cons_append, List.nil_append, isPre, Bool.and_eq_true,
        decide_eq_true_eq]
      constructor
      · rintro ⟨ha, -⟩
        exact absurd ha (hu a (List.mem_cons_self _ _))
      · intro hx
        exact absurd hx (by simp)
    | cons b w' =>
      simp only [List.cons_append, isPre, Bool.and_eq_true, decide_eq_true_eq]
      constructor
      · rintro ⟨rfl, hx⟩
        rw [(ih w' t (fun d hd => hu d (List.mem_cons_of_mem _ hd))
          (fun d hd => hw d (List.mem_cons_of_mem _ hd))).mp hx]
      · intro hx
        injection hx with h1 h2
        exact ⟨h1, (ih w' t (fun d hd => hu d (List.mem_cons_of_mem _ hd))
          (fun d hd => hw d (List.mem_cons_of_mem _ hd))).mpr h2⟩

theorem joinWords_cons (w : Str) {ws : List Str} (h : ws ≠ []) :
    joinWords (w :: ws) = w ++ ' ' :: joinWords ws := by
  cases ws with
  | nil => exact absurd rfl h
  | cons => rfl

theorem wrepTail_length (u v : Str) :
    ∀ ws : List Str, (wrepTail u v ws).length = ws.length
  | [] => rfl
  | [_] => rfl
  | w :: w2 :: ws => by
    simp only [wrepTail]
    split_ifs
    · simp [wrepTail_length u v ws]
    · simp [wrepTail_length u v (w2 :: ws)]

theorem wrepTail_mem (u v : Str) :
    ∀ ws : List Str, ∀ w ∈ wrepTail u v ws, w ∈ ws ∨ w = v
  | [] => by simp [wrepTail]
  | [w] => by simp [wrepTail]
  | w :: w2 :: ws => by
    simp only [wrepTail]
    split_ifs with h
    · intro x hx
      rcases List.mem_cons.mp hx with rfl | hx2
      · exact Or.inr rfl
      · rcases List.mem_cons.mp hx2 with rfl | hx3
        · exact Or.inl (by simp)
        · rcases wrepTail_mem u v ws x hx3 with hm | hm
          · exact Or.inl (by simp [hm])
          · exact Or.inr hm
    · intro x hx
      rcases List.mem_cons.mp hx with rfl | hx2
      · exact Or.inl (by simp)
      · rcases wrepTail_mem u v (w2 :: ws) x hx2 with hm | hm
        · exact Or.inl (List.mem_cons_of_mem _ hm)
        · exact Or.inr hm

theorem wrepTail_id (u v : Str) :
    ∀ ws : List Str, u ∉ ws → wrepTail u v ws = ws
  | [] => fun _ => rfl
  | [_] => fun _ => rfl
  | w :: w2 :: ws => fun h => by
    have hw : ¬ w = u := fun hx => h (hx ▸ List.mem_cons_self _ _)
    simp only [wrepTail, if_neg hw]
    rw [wrepTail_id u v (w2 :: ws) (fun hx => h (List.mem_cons_of_mem _ hx))]

theorem wrepHead_length (u v : Str) (ws : List Str) :
    (wrepHead u v ws).length = ws.length := by
  cases ws with
  | nil => rfl
  | cons w t => simp [wrepHead, wrepTail_length]

theorem wrepHead_mem (u v : Str) (ws : List Str) :
    ∀ w ∈ wrepHead u v ws, w ∈ ws ∨ w = v := by
  cases ws with
  | nil => simp [wrepHead]
  | cons w t =>
    intro x hx
    rcases List.mem_cons.mp hx with rfl | hx2
    · exact Or.inl (by simp)
    · rcases wrepTail_mem u v t x hx2 with hm | hm
      · exact Or.inl (List.mem_cons_of_mem _ hm)
      · exact Or.inr hm

theorem wrepHead_id (u v : Str) (ws : List Str) (h : u ∉ ws) :
    wrepHead u v ws = ws := by
  cases ws with
  | nil => rfl
  | cons w t =>
    simp only [wrepHead]
    rw [wrepTail_id u v t (fun hx => h (List.mem_cons_of_mem _ hx))]

/-! #### Simulation: `replaceL ' u ' ' v '` on a join of space-free words -/

theorem replaceL_join_tail (u v : Str) (hu : ∀ c ∈ u, c ≠ ' ') :
    ∀ (n : Nat) (ws : List Str), ws.length ≤ n → ws ≠ [] →
    (∀ w ∈ ws, w ≠ [] ∧ ∀ c ∈ w, c ≠ ' ') →
    replaceL (' ' :: (u ++ [' '])) (' ' :: (v ++ [' '])) (' ' :: joinWords ws) =
      ' ' :: joinWords (wrepTail u v ws) := by
  intro n
  induction n with
  | zero =>
    intro ws hlen hne _
    cases ws with
    | nil => exact absurd rfl hne
    | cons => simp at hlen
  | succ n ih =>
    intro ws hlen hne hok
    cases ws with
    | nil => exact absurd rfl hne
    | cons w t =>
      have hw := hok w (List.mem_cons_self _ _)
      cases t with
      | nil =>
        have hpre : isPre (' ' :: (u ++ [' ']))
            (' ' :: joinWords [w]) = false := by
          simp only [joinWords, isPre, Bool.and_eq_false_iff]
          right
          exact isPre_pat_word u w hw.2
        rw [replaceL_cons_neg _ (by simp [hpre])]
        show ' ' :: replaceL _ _ w = _
        rw [replaceL_word_id _ rfl w hw.2]
        rfl
      | cons w2 t' =>
        have hJ : joinWords (w :: w2 :: t') = w ++ ' ' :: joinWords (w2 :: t') :=
          joinWords_cons w (by simp)
        rw [hJ]
        by_cases hwu : w = u
        · have hpre : isPre (' ' :: (u ++ [' ']))
              (' ' :: (w ++ ' ' :: joinWords (w2 :: t'))) = true := by
            simp only [isPre, Bool.and_eq_true, decide_eq_true_eq]
            exact ⟨trivial, (isPre_pat_join u w (joinWords (w2 :: t')) hu hw.2).mpr
              hwu.symm⟩
          rw [replaceL_cons_pos _ (by simp) hpre]
          have hdrop : ((w ++ ' ' :: joinWords (w2 :: t')).drop
              ((' ' :: (u ++ [' '])).length - 1)) = joinWords (w2 :: t') := by
            have hlen2 : (' ' :: (u ++ [' '])).length - 1 = (w ++ [' ']).length := by
              simp [hwu]
            rw [hlen2,
              show w ++ ' ' :: joinWords (w2 :: t') =
                (w ++ [' ']) ++ joinWords (w2 :: t') by simp]
            exact List.drop_left _ _
          rw [hdrop]
          have hw2 := hok w2 (List.mem_cons_of_mem _ (List.mem_cons_self _ _))
          cases t' with
          | nil =>
            show (' ' :: (v ++ [' '])) ++ replaceL _ _ w2 = _
            rw [replaceL_word_id _ rfl w2 hw2.2]
            simp only [wrepTail, if_pos hwu, joinWords]
            simp
          | cons w3 t'' =>
            rw [joinWords_cons w2 (by simp)]
            rw [replaceL_append_word _ rfl w2 _ hw2.2]
            rw [ih (w3 :: t'')
              (by simp only [List.length_cons] at hlen ⊢; omega) (by simp)
              (fun x hx => hok x
                (List.mem_cons_of_mem _ (List.mem_cons_of_mem _ hx)))]
            simp only [wrepTail, if_pos hwu]
            have hne2 : wrepTail u v (w3 :: t'') ≠ [] := by
              intro hx
              have hl := wrepTail_length u v (w3 :: t'')
              rw [hx] at hl
              simp at hl
            rw [joinWords_cons v (by simp), joinWords_cons w2 hne2]
            simp
        · have hpre : isPre (' ' :: (u ++ [' ']))
              (' ' :: (w ++ ' ' :: joinWords (w2 :: t'))) = false := by
            simp only [isPre, Bool.and_eq_false_iff]
            right
            cases hx : isPre (u ++ [' ']) (w ++ ' ' :: joinWords (w2 :: t')) with
            | false => rfl
            | true =>
              exact absurd ((isPre_pat_join u w (joinWords (w2 :: t')) hu
                hw.2).mp hx) (fun he => hwu he.symm)
          rw [replaceL_cons_neg _ (by simp [hpre])]
          show ' ' :: replaceL _ _ (w ++ ' ' :: joinWords (w2 :: t')) = _
          rw [replaceL_append_word _ rfl w _ hw.2]
          rw [ih (w2 :: t')
            (by simp only [List.length_cons] at hlen ⊢; omega) (by simp)
            (fun x hx => hok x (List.mem_cons_of_mem _ hx))]
          simp only [wrepTail, if_neg hwu]
          have hne2 : wrepTail u v (w2 :: t') ≠ [] := by
            intro hx
            have hl := wrepTail_length u v (w2 :: t')
            rw [hx] at hl
            simp at hl
          rw [joinWords_cons w hne2]

theorem replaceL_join_head (u v : Str) (hu : ∀ c ∈ u, c ≠ ' ')
    (ws : List Str) (hok : ∀ w ∈ ws, w ≠ [] ∧ ∀ c ∈ w, c ≠ ' ') :
    replaceL (' ' :: (u ++ [' '])) (' ' :: (v ++ [' '])) (joinWords ws) =
      joinWords (wrepHead u v ws) := by
  cases ws with
  | nil => rfl
  | cons w t =>
    have hw := hok w (List.mem_cons_self _ _)
    cases t with
    | nil =>
      show replaceL _ _ w = _
      rw [replaceL_word_id _ rfl w hw.2]
      rfl
    | cons w2 t' =>
      rw [joinWords_cons w (by simp)]
      rw [replaceL_append_word _ rfl w _ hw.2]
      rw [replaceL_join_tail u v hu (w2 :: t').length (w2 :: t') (le_refl _)
        (by simp) (fun x hx => hok x (List.mem_cons_of_mem _ hx))]
      have hne2 : wrepTail u v (w2 :: t') ≠ [] := by
        intro hx
        have hl := wrepTail_length u v (w2 :: t')
        rw [hx] at hl
        simp at hl
      show _ = joinWords (w :: wrepTail u v (w2 :: t'))
      rw [joinWords_cons w hne2]

theorem wordsOK_ne_space {ws : List Str} (h : WordsOK ws) :
    ∀ w ∈ ws, w ≠ [] ∧ ∀ c ∈ w, c ≠ ' ' :=
  fun w hw => ⟨(h w hw).1,
    fun c hc => not_space_of_not_pyspace ((h w hw).2 c hc)⟩

theorem wrepHead_wordsOK {u v : Str} {ws : List Str} (h : WordsOK ws)
    (hv : v ≠ [] ∧ ∀ c ∈ v, isPySpace c = false) :
    WordsOK (wrepHead u v ws) :=
  fun w hw => (wrepHead_mem u v ws w hw).elim (h w) (fun he => he ▸ hv)

theorem applyReplacements_join (ws : List Str) (hok : WordsOK ws) :
    applyReplacements (joinWords ws) = joinWords (wrep4 ws) := by
  have hv1 : ("street".data ≠ ([] : Str)) ∧
      ∀ c ∈ "street".data, isPySpace c = false := by decide
  have hv2 : ("road".data ≠ ([] : Str)) ∧
      ∀ c ∈ "road".data, isPySpace c = false := by decide
  have hv3 : ("avenue".data ≠ ([] : Str)) ∧
      ∀ c ∈ "avenue".data, isPySpace c = false := by decide
  have h1 : WordsOK (wrepHead "str".data "street".data ws) :=
    wrepHead_wordsOK hok hv1
  have h2 : WordsOK (wrepHead "rd".data "road".data
      (wrepHead "str".data "street".data ws)) := wrepHead_wordsOK h1 hv2
  have h3 : WordsOK (wrepHead "ave".data "avenue".data
      (wrepHead "rd".data "road".data
        (wrepHead "str".data "street".data ws))) := wrepHead_wordsOK h2 hv3
  show replaceL " st ".data " street ".data
      (replaceL " ave ".data " avenue ".data
        (replaceL " rd ".data " road ".data
          (replaceL " str ".data " street ".data (joinWords ws)))) = _
  rw [show replaceL " str ".data " street ".data (joinWords ws) =
      joinWords (wrepHead "str".data "street".data ws) from
      replaceL_join_head "str".data "street".data (by decide) ws
        (wordsOK_ne_space hok)]
  rw [show replaceL " rd ".data " road ".data
        (joinWords (wrepHead "str".data "street".data ws)) =
      joinWords (wrepHead "rd".data "road".data
        (wrepHead "str".data "street".data ws)) from
      replaceL_join_head "rd".data "road".data (by decide) _
        (wordsOK_ne_space h1)]
  rw [show replaceL " ave ".data " avenue ".data
        (joinWords (wrepHead "rd".data "road".data
          (wrepHead "str".data "street".data ws))) =
      joinWords (wrepHead "ave".data "avenue".data
        (wrepHead "rd".data "road".data
          (wrepHead "str".data "street".data ws))) from
      replaceL_join_head "ave".data "avenue".data (by decide) _
        (wordsOK_ne_space h2)]
  rw [show replaceL " st ".data " street ".data
        (joinWords (wrepHead "ave".data "avenue".data
          (wrepHead "rd".data "road".data
            (wrepHead "str".data "street".data ws)))) =
      joinWords (wrepHead "st".data "street".data
        (wrepHead "ave".data "avenue".data
          (wrepHead "rd".data "road".data
            (wrepHead "str".data "street".data ws)))) from
      replaceL_join_head "st".data "street".data (by decide) _
        (wordsOK_ne_space h3)]
  rfl

/-! #### The normalize pipeline fixes joins of clean words -/

theorem mem_joinWords : ∀ {ws : List Str} {c : Char},
    c ∈ joinWords ws → c = ' ' ∨ ∃ w ∈ ws, c ∈ w := by
  intro ws
  induction ws with
  | nil => intro c hc; simp [joinWords] at hc
  | cons w t ih =>
    intro c hc
    cases t with
    | nil => exact Or.inr ⟨w, by simp, hc⟩
    | cons w2 t' =>
      rw [joinWords_cons w (by simp)] at hc
      rcases List.mem_append.mp hc with hcw | hctail
      · exact Or.inr ⟨w, by simp, hcw⟩
      · rcases List.mem_cons.mp hctail with rfl | hc2
        · exact Or.inl rfl
        · rcases ih hc2 with hsp | ⟨w', hw', hc'⟩
          · exact Or.inl hsp
          · exact Or.inr ⟨w', List.mem_cons_of_mem _ hw', hc'⟩

theorem joinWords_ne_nil {ws : List Str} (hne : ws ≠ [])
    (hok : ∀ w ∈ ws, w ≠ []) : joinWords ws ≠ [] := by
  cases ws with
  | nil => exact absurd rfl hne
  | cons w t =>
    cases t with
    | nil => exact hok w (by simp)
    | cons =>
      rw [joinWords_cons w (by simp)]
      intro hx
      rcases List.append_eq_nil.mp hx with ⟨-, h2⟩
      exact absurd h2 (by simp)

theorem joinWords_head {ws : List Str} (hne : ws ≠ []) (hok : WordsOK ws) :
    ∃ c rest, joinWords ws = c :: rest ∧ isPySpace c = false := by
  cases ws with
  | nil => exact absurd rfl hne
  | cons w t =>
    obtain ⟨cw, w', hw'⟩ := List.exists_cons_of_ne_nil (hok w (by simp)).1
    have hcw : isPySpace cw = false :=
      (hok w (by simp)).2 cw (by rw [hw']; simp)
    cases t with
    | nil => exact ⟨cw, w', by simp [joinWords, hw'], hcw⟩
    | cons w2 t' =>
      refine ⟨cw, w' ++ ' ' :: joinWords (w2 :: t'), ?_, hcw⟩
      rw [joinWords_cons w (by simp), hw']
      rfl

theorem joinWords_last : ∀ {ws : List Str}, ws ≠ [] → WordsOK ws →
    ∃ init d, joinWords ws = init ++ [d] ∧ isPySpace d = false := by
  intro ws
  induction ws with
  | nil => intro hne _; exact absurd rfl hne
  | cons w t ih =>
    intro _ hok
    cases t with
    | nil =>
      have hwne := (hok w (by simp)).1
      refine ⟨w.dropLast, w.getLast hwne, ?_, ?_⟩
      · show w = _
        exact (List.dropLast_append_getLast hwne).symm
      · exact (hok w (by simp)).2 _ (List.getLast_mem hwne)
    | cons w2 t' =>
      obtain ⟨init, d, hjoin, hd⟩ := ih (by simp)
        (fun x hx => hok x (List.mem_cons_of_mem _ hx))
      refine ⟨w ++ ' ' :: init, d, ?_, hd⟩
      rw [joinWords_cons w (by simp), hjoin]
      simp

theorem pyStrip_join {ws : List Str} (hne : ws ≠ []) (hok : WordsOK ws) :
    pyStrip (joinWords ws) = joinWords ws := by
  obtain ⟨c, rest, h1, hc⟩ := joinWords_head hne hok
  obtain ⟨init, d, h2, hd⟩ := joinWords_last hne hok
  unfold pyStrip
  rw [h1, List.dropWhile_cons, if_neg (by simp [hc]), ← h1, h2,
    List.reverse_append]
  simp only [List.reverse_cons, List.reverse_nil, List.nil_append,
    List.singleton_append, List.dropWhile_cons, hc]
  rw [if_neg (by simp [hd])]
  simp

theorem collapseAux_append_word : ∀ (w : Str), w ≠ [] →
    (∀ c ∈ w, isPySpace c = false) →
    ∀ (b : Bool) (s : Str), collapseAux b (w ++ s) = w ++ collapseAux false s := by
  intro w
  induction w with
  | nil => intro h; exact absurd rfl h
  | cons c w' ih =>
    intro _ hw b s
    have hc : isPySpace c = false := hw c (by simp)
    show collapseAux b (c :: (w' ++ s)) = _
    rw [collapseAux, if_neg (by simp [hc])]
    cases w' with
    | nil => rfl
    | cons d w'' =>
      rw [ih (by simp) (fun x hx => hw x (List.mem_cons_of_mem _ hx)) false s]
      rfl

theorem collapseAux_true_of_head {s : Str}
    (h : s = [] ∨ ∃ c t, s = c :: t ∧ isPySpace c = false) :
    collapseAux true s = collapseAux false s := by
  rcases h with rfl | ⟨c, t, rfl, hc⟩
  · rfl
  · rw [collapseAux, collapseAux, if_neg (by simp [hc]), if_neg (by simp [hc])]

theorem collapse_join : ∀ {ws : List Str}, WordsOK ws →
    collapse (joinWords ws) = joinWords ws := by
  intro ws
  induction ws with
  | nil => intro _; rfl
  | cons w t ih =>
    intro hok
    have hw := hok w (by simp)
    cases t with
    | nil =>
      have h := collapseAux_append_word w hw.1 hw.2 false []
      have h2 : collapseAux false ([] : Str) = [] := rfl
      rw [h2, List.append_nil] at h
      exact h
    | cons w2 t' =>
      rw [joinWords_cons w (by simp)]
      show collapseAux false (w ++ ' ' :: joinWords (w2 :: t')) = _
      rw [collapseAux_append_word w hw.1 hw.2 false _]
      have hhead := joinWords_head (show (w2 :: t' : List Str) ≠ [] by simp)
        (fun x hx => hok x (List.mem_cons_of_mem _ hx))
      obtain ⟨c, rest, hj, hc⟩ := hhead
      have hsp : collapseAux false (' ' :: joinWords (w2 :: t')) =
          ' ' :: collapseAux true (joinWords (w2 :: t')) := by
        rw [collapseAux, if_pos (by decide : isPySpace ' ' = true)]
        rfl
      rw [hsp, collapseAux_true_of_head (Or.inr ⟨c, rest, hj, hc⟩)]
      have hcol : collapseAux false (joinWords (w2 :: t')) =
          joinWords (w2 :: t') :=
        ih (fun x hx => hok x (List.mem_cons_of_mem _ hx))
      rw [hcol]

theorem splitWsAux_append_word : ∀ (w : Str),
    (∀ c ∈ w, isPySpace c = false) →
    ∀ (cur s : Str), splitWsAux cur (w ++ s) = splitWsAux (w.reverse ++ cur) s := by
  intro w
  induction w with
  | nil => intro _ cur s; simp
  | cons c w' ih =>
    intro hw cur s
    have hc : isPySpace c = false := hw c (by simp)
    show splitWsAux cur (c :: (w' ++ s)) = _
    rw [splitWsAux, if_neg (by simp [hc])]
    rw [ih (fun x hx => hw x (List.mem_cons_of_mem _ hx)) (c :: cur) s]
    congr 1
    simp

theorem splitWs_join : ∀ {ws : List Str}, WordsOK ws →
    splitWs (joinWords ws) = ws := by
  intro ws
  induction ws with
  | nil => intro _; rfl
  | cons w t ih =>
    intro hok
    have hw := hok w (by simp)
    cases t with
    | nil =>
      have h := splitWsAux_append_word w hw.2 [] []
      rw [List.append_nil, List.append_nil] at h
      show splitWsAux [] w = [w]
      rw [h]
      show (if w.reverse = [] then [] else [w.reverse.reverse]) = [w]
      rw [if_neg (by simp [hw.1])]
      simp
    | cons w2 t' =>
      rw [joinWords_cons w (by simp)]
      show splitWsAux [] (w ++ ' ' :: joinWords (w2 :: t')) = _
      rw [splitWsAux_append_word w hw.2 [] _]
      rw [List.append_nil]
      have hstep : splitWsAux w.reverse (' ' :: joinWords (w2 :: t')) =
          w.reverse.reverse :: splitWsAux [] (joinWords (w2 :: t')) := by
        rw [splitWsAux, if_pos (by decide : isPySpace ' ' = true),
          if_neg (by simp [hw.1])]
      rw [hstep]
      have hih : splitWsAux [] (joinWords (w2 :: t')) = w2 :: t' :=
        ih (fun x hx => hok x (List.mem_cons_of_mem _ hx))
      rw [hih]
      simp

theorem map_eq_self {l : Str} {f : Char → Char} (h : ∀ c ∈ l, f c = c) :
    l.map f = l := by
  induction l with
  | nil => rfl
  | cons c t ih =>
    simp only [List.map_cons, h c (by simp),
      ih (fun x hx => h x (List.mem_cons_of_mem _ hx))]

/-! #### Character tracking through the early normalize stages -/

theorem applyReplacements_nil : applyReplacements [] = [] := rfl

theorem goodWords_wordsOK {ws : List Str} (h : GoodWords ws) : WordsOK ws :=
  fun w hw => ⟨(h w hw).1, fun c hc => alnum_not_space ((h w hw).2 c hc)⟩

theorem subSpecial_chars {s : Str} :
    ∀ c ∈ subSpecial s, isLowerAlnum c = true ∨ isPySpace c = true ∨ c = ' ' := by
  intro c hc
  obtain ⟨a, -, ha⟩ := List.mem_map.mp hc
  by_cases hk : (isLowerAlnum a || isPySpace a) = true
  · rw [if_pos hk] at ha
    subst ha
    rcases Bool.or_eq_true_iff.mp hk with h | h
    · exact Or.inl h
    · exact Or.inr (Or.inl h)
  · rw [if_neg hk] at ha
    exact Or.inr (Or.inr ha.symm)

theorem collapseAux_chars : ∀ (b : Bool) (s : Str) (c : Char),
    c ∈ collapseAux b s → c = ' ' ∨ (c ∈ s ∧ isPySpace c = false) := by
  intro b s
  induction s generalizing b with
  | nil => intro c hc; simp [collapseAux] at hc
  | cons a t ih =>
    intro c hc
    by_cases ha : isPySpace a = true
    · rw [collapseAux, if_pos ha] at hc
      rcases hb : b with - | -
      · rw [hb] at hc
        rcases List.mem_cons.mp hc with rfl | hc2
        · exact Or.inl rfl
        · rcases ih true c hc2 with hsp | ⟨hmem, hns⟩
          · exact Or.inl hsp
          · exact Or.inr ⟨List.mem_cons_of_mem _ hmem, hns⟩
      · rw [hb] at hc
        rcases ih true c hc with hsp | ⟨hmem, hns⟩
        · exact Or.inl hsp
        · exact Or.inr ⟨List.mem_cons_of_mem _ hmem, hns⟩
    · rw [collapseAux, if_neg ha] at hc
      rcases List.mem_cons.mp hc with rfl | hc2
      · exact Or.inr ⟨List.mem_cons_self _ _, by simpa using ha⟩
      · rcases ih false c hc2 with hsp | ⟨hmem, hns⟩
        · exact Or.inl hsp
        · exact Or.inr ⟨List.mem_cons_of_mem _ hmem, hns⟩

theorem n3_chars {s : Str} :
    ∀ c ∈ collapse (subSpecial s), isLowerAlnum c = true ∨ c = ' ' := by
  intro c hc
  rcases collapseAux_chars false (subSpecial s) c hc with hsp | ⟨hmem, hns⟩
  · exact Or.inr hsp
  · rcases subSpecial_chars c hmem with ha | hsp' | hsp'
    · exact Or.inl ha
    · rw [hsp'] at hns; cases hns
    · subst hsp'; exact absurd hns (by decide)

theorem mem_dropWhile_not {s : Str} {c : Char} (hc : isPySpace c = false)
    (h : c ∈ s) : c ∈ s.dropWhile isPySpace := by
  induction s with
  | nil => cases h
  | cons a t ih =>
    by_cases ha : isPySpace a = true
    · rw [List.dropWhile_cons, if_pos ha]
      rcases List.mem_cons.mp h with rfl | h2
      · rw [ha] at hc; cases hc
      · exact ih h2
    · rw [List.dropWhile_cons, if_neg ha]
      exact h

theorem mem_pyStrip {s : Str} {c : Char} (hc : isPySpace c = false)
    (h : c ∈ s) : c ∈ pyStrip s := by
  unfold pyStrip
  rw [List.mem_reverse]
  apply mem_dropWhile_not hc
  rw [List.mem_reverse]
  exact mem_dropWhile_not hc h

theorem mem_subSpecial {s : Str} {c : Char} (hc : isLowerAlnum c = true)
    (h : c ∈ s) : c ∈ subSpecial s := by
  unfold subSpecial
  refine List.mem_map.mpr ⟨c, h, ?_⟩
  rw [if_pos (by simp [hc])]

theorem mem_collapseAux {c : Char} (hc : isPySpace c = false) :
    ∀ (b : Bool) (s : Str), c ∈ s → c ∈ collapseAux b s := by
  intro b s
  induction s generalizing b with
  | nil => intro h; cases h
  | cons a t ih =>
    intro h
    by_cases ha : isPySpace a = true
    · have h2 : c ∈ t := by
        rcases List.mem_cons.mp h with rfl | h2
        · rw [ha] at hc; cases hc
        · exact h2
      rw [collapseAux, if_pos ha]
      cases b with
      | true => exact ih true h2
      | false => exact List.mem_cons_of_mem _ (ih true h2)
    · rw [collapseAux, if_neg ha]
      rcases List.mem_cons.mp h with rfl | h2
      · exact List.mem_cons_self _ _
      · exact List.mem_cons_of_mem _ (ih false h2)

theorem splitWsAux_cur_ne_nil :
    ∀ (s cur : Str), cur ≠ [] → splitWsAux cur s ≠ [] := by
  intro s
  induction s with
  | nil =>
    intro cur hcur
    show (if cur = [] then [] else [cur.reverse]) ≠ []
    rw [if_neg hcur]
    simp
  | cons a t ih =>
    intro cur hcur
    by_cases ha : isPySpace a = true
    · rw [splitWsAux, if_pos ha, if_neg hcur]
      simp
    · rw [splitWsAux, if_neg ha]
      exact ih (a :: cur) (by simp)

theorem splitWsAux_ne_nil :
    ∀ (s cur : Str), (∃ c ∈ s, isPySpace c = false) → splitWsAux cur s ≠ [] := by
  intro s
  induction s with
  | nil => rintro cur ⟨c, hc, -⟩; cases hc
  | cons a t ih =>
    rintro cur ⟨c, hc, hns⟩
    by_cases ha : isPySpace a = true
    · have hct : c ∈ t := by
        rcases List.mem_cons.mp hc with rfl | h2
        · rw [ha] at hns; cases hns
        · exact h2
      rw [splitWsAux, if_pos ha]
      by_cases hcur : cur = []
      · rw [if_pos hcur]
        exact ih [] ⟨c, hct, hns⟩
      · rw [if_neg hcur]
        simp
    · rw [splitWsAux, if_neg ha]
      exact splitWsAux_cur_ne_nil t (a :: cur) (by simp)

theorem splitWsAux_words (P : Char → Prop) :
    ∀ (s cur : Str), (∀ c ∈ cur, isPySpace c = false ∧ P c) →
    (∀ c ∈ s, isPySpace c = false → P c) →
    ∀ w ∈ splitWsAux cur s, w ≠ [] ∧ ∀ c ∈ w, isPySpace c = false ∧ P c := by
  intro s
  induction s with
  | nil =>
    intro cur hcur _ w hw
    by_cases hc : cur = []
    · rw [show splitWsAux cur [] = if cur = [] then [] else [cur.reverse]
        from rfl, if_pos hc] at hw
      cases hw
    · rw [show splitWsAux cur [] = if cur = [] then [] else [cur.reverse]
        from rfl, if_neg hc] at hw
      rcases List.mem_cons.mp hw with rfl | hw2
      · refine ⟨by simp [hc], ?_⟩
        intro c hcw
        exact hcur c (List.mem_reverse.mp hcw)
      · cases hw2
  | cons a t ih =>
    intro cur hcur hs w hw
    by_cases ha : isPySpace a = true
    · rw [splitWsAux, if_pos ha] at hw
      by_cases hc : cur = []
      · rw [if_pos hc] at hw
        exact ih [] (by simp) (fun c hc2 => hs c (List.mem_cons_of_mem _ hc2)) w hw
      · rw [if_neg hc] at hw
        rcases List.mem_cons.mp hw with rfl | hw2
        · refine ⟨by simp [hc], ?_⟩
          intro c hcw
          exact hcur c (List.mem_reverse.mp hcw)
        · exact ih [] (by simp) (fun c hc2 => hs c (List.mem_cons_of_mem _ hc2)) w hw2
    · rw [splitWsAux, if_neg ha] at hw
      refine ih (a :: cur) ?_ (fun c hc2 => hs c (List.mem_cons_of_mem _ hc2)) w hw
      intro c hc2
      rcases List.mem_cons.mp hc2 with rfl | hc3
      · exact ⟨by simpa using ha, hs c (List.mem_cons_self _ _) (by simpa using ha)⟩
      · exact hcur c hc3

/-! #### `wrep4` facts and the shape of `normalize` outputs -/

theorem wrep4_length (ws : List Str) : (wrep4 ws).length = ws.length := by
  unfold wrep4
  rw [wrepHead_length, wrepHead_length, wrepHead_length, wrepHead_length]

theorem wrep4_mem (ws : List Str) : ∀ w ∈ wrep4 ws,
    w ∈ ws ∨ w = "street".data ∨ w = "road".data ∨ w = "avenue".data := by
  intro w hw
  unfold wrep4 at hw
  rcases wrepHead_mem _ _ _ w hw with hw1 | rfl
  · rcases wrepHead_mem _ _ _ w hw1 with hw2 | rfl
    · rcases wrepHead_mem _ _ _ w hw2 with hw3 | rfl
      · rcases wrepHead_mem _ _ _ w hw3 with hw4 | rfl
        · exact Or.inl hw4
        · exact Or.inr (Or.inl rfl)
      · exact Or.inr (Or.inr (Or.inl rfl))
    · exact Or.inr (Or.inr (Or.inr rfl))
  · exact Or.inr (Or.inl rfl)

theorem wrep4_id (ws : List Str) (h1 : "str".data ∉ ws) (h2 : "rd".data ∉ ws)
    (h3 : "ave".data ∉ ws) (h4 : "st".data ∉ ws) : wrep4 ws = ws := by
  unfold wrep4
  rw [wrepHead_id _ _ _ h1, wrepHead_id _ _ _ h2, wrepHead_id _ _ _ h3,
    wrepHead_id _ _ _ h4]

/-- Every non-empty input to `normalize` either collapses to no tokens at
all (and normalizes to the empty string), or normalizes to a join of
non-empty lowercase-alphanumeric words that are all stopwords (at most
two, the fallback branch) or all non-stopwords. -/
theorem normalize_shape (x : Str) (hx : x ≠ []) :
    (splitWs (collapse (subSpecial (pyStrip (x.map pyLower)))) = [] ∧
      normalize x = []) ∨
    (∃ ws, ws ≠ [] ∧ GoodWords ws ∧
      ((∀ w ∈ ws, w ∈ STOPWORDS) ∧ ws.length ≤ 2 ∨ ∀ w ∈ ws, w ∉ STOPWORDS) ∧
      normalize x = joinWords ws) := by
  have hnorm : normalize x =
      pyStrip (applyReplacements (joinWords
        (if (splitWs (collapse (subSpecial (pyStrip (x.map pyLower))))).filter
            (fun w => ¬ w ∈ STOPWORDS) = [] then
          (splitWs (collapse (subSpecial (pyStrip (x.map pyLower))))).take 2
        else
          (splitWs (collapse (subSpecial (pyStrip (x.map pyLower))))).filter
            (fun w => ¬ w ∈ STOPWORDS)))) := by
    rw [normalize, if_neg hx]
  have hwords : ∀ w ∈ splitWs (collapse (subSpecial (pyStrip (x.map pyLower)))),
      w ≠ [] ∧ ∀ c ∈ w, isPySpace c = false ∧ isLowerAlnum c = true := by
    apply splitWsAux_words (fun c => isLowerAlnum c = true) _ [] (by simp)
    intro c hc hns
    rcases n3_chars c hc with ha | hsp
    · exact ha
    · subst hsp; exact absurd hns (by decide)
  by_cases hwe : splitWs (collapse (subSpecial (pyStrip (x.map pyLower)))) = []
  · left
    refine ⟨hwe, ?_⟩
    rw [hnorm, hwe]
    rfl
  · right
    by_cases hfe : (splitWs (collapse (subSpecial (pyStrip (x.map pyLower))))).filter
        (fun w => ¬ w ∈ STOPWORDS) = []
    · -- fallback branch: all words are stopwords, keep the first two
      have hstop : ∀ w ∈ splitWs (collapse (subSpecial (pyStrip (x.map pyLower)))),
          w ∈ STOPWORDS := by
        intro w hw
        have := List.filter_eq_nil.mp hfe w hw
        simpa using this
      set ws1 := (splitWs (collapse (subSpecial (pyStrip (x.map pyLower))))).take 2
        with hws1
      have hsub : ∀ w ∈ ws1,
          w ∈ splitWs (collapse (subSpecial (pyStrip (x.map pyLower)))) :=
        fun w hw => List.take_subset 2 _ hw
      have hne1 : ws1 ≠ [] := by
        rw [hws1]
        obtain ⟨w, t, hwt⟩ := List.exists_cons_of_ne_nil hwe
        rw [hwt]
        simp
      have hgood1 : GoodWords ws1 := by
        intro w hw
        obtain ⟨h1, h2⟩ := hwords w (hsub w hw)
        exact ⟨h1, fun c hc => (h2 c hc).2⟩
      have hstop1 : ∀ w ∈ ws1, w ∈ STOPWORDS := fun w hw => hstop w (hsub w hw)
      have hnost : ∀ u : Str, u ∉ STOPWORDS → u ∉ ws1 :=
        fun u hu hmem => hu (hstop1 u hmem)
      have hid : wrep4 ws1 = ws1 :=
        wrep4_id ws1 (hnost _ (by decide)) (hnost _ (by decide))
          (hnost _ (by decide)) (hnost _ (by decide))
      refine ⟨ws1, hne1, hgood1, Or.inl ⟨hstop1, ?_⟩, ?_⟩
      · rw [hws1]
        have := List.length_take 2
          (splitWs (collapse (subSpecial (pyStrip (x.map pyLower)))))
        omega
      · rw [hnorm, if_pos hfe,
          applyReplacements_join ws1 (goodWords_wordsOK hgood1), hid,
          pyStrip_join hne1 (goodWords_wordsOK hgood1)]
    · -- regular branch: keep the non-stopwords, then expand abbreviations
      set flt := (splitWs (collapse (subSpecial (pyStrip (x.map pyLower))))).filter
        (fun w => ¬ w ∈ STOPWORDS) with hflt
      have hgoodf : GoodWords flt := by
        intro w hw
        obtain ⟨h1, h2⟩ := hwords w (List.mem_of_mem_filter hw)
        exact ⟨h1, fun c hc => (h2 c hc).2⟩
      have hnostf : ∀ w ∈ flt, w ∉ STOPWORDS := by
        intro w hw
        have := List.of_mem_filter hw
        simpa using this
      set ws2 := wrep4 flt with hws2
      have hne2 : ws2 ≠ [] := by
        rw [hws2]
        intro hcontra
        have := wrep4_length flt
        rw [hcontra] at this
        simp at this
        exact hfe (List.eq_nil_of_length_eq_zero this.symm)
      have hgood2 : GoodWords ws2 := by
        intro w hw
        rcases wrep4_mem flt w (hws2 ▸ hw) with hmem | rfl | rfl | rfl
        · exact hgoodf w hmem
        · exact ⟨by decide, by decide⟩
        · exact ⟨by decide, by decide⟩
        · exact ⟨by decide, by decide⟩
      have hnost2 : ∀ w ∈ ws2, w ∉ STOPWORDS := by
        intro w hw
        rcases wrep4_mem flt w (hws2 ▸ hw) with hmem | rfl | rfl | rfl
        · exact hnostf w hmem
        · decide
        · decide
        · decide
      refine ⟨ws2, hne2, hgood2, Or.inr hnost2, ?_⟩
      rw [hnorm, if_neg hfe,
        applyReplacements_join flt (goodWords_wordsOK hgoodf), ← hws2,
        pyStrip_join hne2 (goodWords_wordsOK hgood2)]

theorem normShape_normalize (x : Str) : NormShape (normalize x) := by
  by_cases hx : x = []
  · subst hx
    exact Or.inl rfl
  · rcases normalize_shape x hx with ⟨-, hz⟩ | ⟨ws, hne, hgood, hclass, heq⟩
    · exact Or.inl hz
    · exact Or.inr ⟨ws, hne, hgood, hclass, heq⟩

/-- Any string of `normalize`'s output shape on which the abbreviation
replacement pass is a no-op is a fixed point of `normalize`. -/
theorem normalize_fixed {y : Str} (hshape : NormShape y)
    (hrep : applyReplacements y = y) : normalize y = y := by
  rcases hshape with rfl | ⟨ws, hne, hgood, hclass, rfl⟩
  · rfl
  · have hok : WordsOK ws := goodWords_wordsOK hgood
    have hyne : joinWords ws ≠ [] :=
      joinWords_ne_nil hne (fun w hw => (hgood w hw).1)
    have hmap : (joinWords ws).map pyLower = joinWords ws := by
      apply map_eq_self
      intro c hc
      rcases mem_joinWords hc with rfl | ⟨w, hw, hcw⟩
      · decide
      · exact pyLower_alnum ((hgood w hw).2 c hcw)
    have hstrip : pyStrip (joinWords ws) = joinWords ws := pyStrip_join hne hok
    have hsub : subSpecial (joinWords ws) = joinWords ws := by
      apply map_eq_self
      intro c hc
      rcases mem_joinWords hc with rfl | ⟨w, hw, hcw⟩
      · decide
      · rw [if_pos (by simp [(hgood w hw).2 c hcw])]
    have hcol : collapse (joinWords ws) = joinWords ws := collapse_join hok
    have hsplit : splitWs (joinWords ws) = ws := splitWs_join hok
    rw [normalize, if_neg hyne]
    dsimp only
    rw [hmap, hstrip, hsub, hcol, hsplit]
    rcases hclass with ⟨hstop, hlen2⟩ | hnostop
    · have hfe : ws.filter (fun w => ¬ w ∈ STOPWORDS) = [] :=
        List.filter_eq_nil.mpr (fun w hw => by simpa using hstop w hw)
      rw [hfe, if_pos rfl]
      have htake : ws.take 2 = ws := List.take_of_length_le hlen2
      rw [htake, hrep, hstrip]
    · have hfs : ws.filter (fun w => ¬ w ∈ STOPWORDS) = ws :=
        List.filter_eq_self.mpr (fun w hw => by simpa using hnostop w hw)
      rw [hfs, if_neg hne, hrep, hstrip]

/-- C4 (amended): `normalize` is idempotent exactly on inputs whose
normalization the abbreviation-replacement pass leaves unchanged; in
general it is not idempotent, because the non-overlapping left-to-right
`str.replace` scan skips the word after a replacement, and a second pass
can then expand a surviving abbreviation (counterexample: `"a st st b"`). -/
theorem c4_normalize_idempotent_conditional (x : Str)
    (hrep : applyReplacements (normalize x) = normalize x) :
    normalize (normalize x) = normalize x :=
  normalize_fixed (normShape_normalize x) hrep

theorem c4_normalize_idempotent_conditional_witness :
    normalize (normalize "Sangotedo, Ajah".data) =
      normalize "Sangotedo, Ajah".data :=
  c4_normalize_idempotent_conditional "Sangotedo, Ajah".data (by decide)

/-- C4 counterexample: `normalize ("a st st b") = "a street st b"` (the
scan consumes the space after the first `st`, shielding the second), and
normalizing again yields `"a street street b"` — so
`normalize ∘ normalize ≠ normalize` on this input. -/
theorem c4_counterexample :
    normalize (normalize "a st st b".data) ≠ normalize "a st st b".data := by
  decide

/-- C3 (amended): `normalize` returns a non-empty string for every input
containing at least one alphanumeric character (the stopword fallback
keeps the first two pre-filter tokens); but an input with no alphanumeric
characters at all — for example only punctuation — normalizes to the
empty string, so the claim's "for every non-empty input" is too strong. -/
theorem c3_normalize_nonempty (x : Str)
    (hx : ∃ c ∈ x, isLowerAlnum (pyLower c) = true) : normalize x ≠ [] := by
  have hxne : x ≠ [] := by
    rcases hx with ⟨c, hc, -⟩
    exact List.ne_nil_of_mem hc
  rcases normalize_shape x hxne with ⟨hwe, -⟩ | ⟨ws, hne, hgood, -, heq⟩
  · exfalso
    obtain ⟨c, hcx, hca⟩ := hx
    have h1 : pyLower c ∈ x.map pyLower := List.mem_map_of_mem _ hcx
    have hns : isPySpace (pyLower c) = false := alnum_not_space hca
    have h2 : pyLower c ∈ pyStrip (x.map pyLower) := mem_pyStrip hns h1
    have h3 : pyLower c ∈ subSpecial (pyStrip (x.map pyLower)) :=
      mem_subSpecial hca h2
    have h4 : pyLower c ∈ collapse (subSpecial (pyStrip (x.map pyLower))) :=
      mem_collapseAux hns false _ h3
    exact splitWsAux_ne_nil _ [] ⟨pyLower c, h4, hns⟩ hwe
  · rw [heq]
    exact joinWords_ne_nil hne (fun w hw => (hgood w hw).1)

theorem c3_normalize_nonempty_witness :
    normalize "Lagos State!".data ≠ [] :=
  c3_normalize_nonempty "Lagos State!".data (by decide)

/-- C3 counterexample: `"!!!"` is a non-empty input, yet `normalize`
returns the empty string — there are no tokens for the fallback to keep. -/
theorem c3_counterexample :
    "!!!".data ≠ [] ∧ normalize "!!!".data = [] := by
  constructor
  · decide
  · decide

end GeoSearch
